import Mathlib

/-!
# redis-monitor-replication: the monitor-line parser, the per-line step and the pipeline

A shallow embedding of `src/redis-monitor-replication.go`.

* A Go `string` / `[]byte` is a list of byte values (`Nat`, each below 256 when it comes
  from real input).
* A Go run-time panic (index out of range, slice bounds out of range) is `none`.
* `bs := []byte(line)` allocates a backing array whose capacity may exceed `len(line)`;
  the Go language only bounds a slice expression `bs[i:i+2]` by the capacity.  The number
  of spare (zero-initialised) bytes behind the line is the parameter `spare`; every
  theorem below holds for every value of it.
* The running process (reader goroutine, buffered channel `out`, `range` loop of `main`)
  is a transition system, `Pipeline.step`, run under an arbitrary schedule.
-/

namespace RedisMonitor

/-- A Go byte string. -/
abbrev Bytes := List Nat

/-- The bytes of an ASCII string literal (used to write concrete lines readably). -/
def ascii (s : String) : Bytes := s.toList.map Char.toNat

/-- The struct `RedisCommand`: `Name string`, `Args [][]byte`, `IArgs []interface{}`
(the same byte slices as `parts`), `Raw string`. -/
structure RedisCommand where
  Name : Bytes
  Args : List Bytes
  IArgs : List Bytes
  Raw : Bytes
deriving DecidableEq, Repr

/-! ## `strconv.ParseInt(s, 16, 16)` (Go standard library) -/

/-- The digit value `strconv.ParseUint` assigns to a byte: `'0'..'9'` are 0..9 and the
letters of either case (`lower(c) = c | 0x20` in `'a'..'z'`) are 10..35. -/
def digitVal (c : Nat) : Option Nat :=
  if 48 ≤ c ∧ c ≤ 57 then some (c - 48)
  else if 97 ≤ c ∧ c ≤ 122 then some (c - 97 + 10)
  else if 65 ≤ c ∧ c ≤ 90 then some (c - 65 + 10)
  else none

/-- The digit loop of `strconv.ParseUint(s, 16, 16)`: a byte that is no digit, or a digit
that is not below the base 16, is a syntax error; a value above `1<<16 - 1` is a range
error (both `none`). -/
def parseUintLoop : Bytes → Nat → Option Nat
  | [], n => some n
  | c :: cs, n =>
    match digitVal c with
    | none => none
    | some d =>
      if d ≥ 16 then none
      else if n * 16 + d > 65535 then none
      else parseUintLoop cs (n * 16 + d)

/-- The call `strconv.ParseUint(s, 16, 16)`; the empty string is a syntax error. -/
def ParseUint16 (s : Bytes) : Option Nat :=
  match s with
  | [] => none
  | _ :: _ => parseUintLoop s 0

/-- The call `strconv.ParseInt(s, 16, 16)`: an optional leading `+` or `-` is picked off, the rest
goes to `ParseUint`, and the magnitude is checked against the signed 16-bit range.
`none` stands for `err != nil`. -/
def ParseInt16 (s : Bytes) : Option Int :=
  match s with
  | [] => none
  | c :: cs =>
    if c = 43 then
      match ParseUint16 cs with
      | none => none
      | some un => if un ≥ 32768 then none else some (Int.ofNat un)
    else if c = 45 then
      match ParseUint16 cs with
      | none => none
      | some un => if un > 32768 then none else some (- Int.ofNat un)
    else
      match ParseUint16 s with
      | none => none
      | some un => if un ≥ 32768 then none else some (Int.ofNat un)

/-- The Go conversion `byte(ord)` of an `int64`: the value modulo 256. -/
def toByte (ord : Int) : Nat := (ord % 256).toNat

/-! ## `parseRedisCommand` -/

/-- The `for i < len(bs)` loop of `parseRedisCommand`.  The first argument after `spare`
is `bs[i:]`, the bytes not yet read; then `inQuotes`, `part` and `parts`.
`none` is a run-time panic: `bs[i]` with `i = len(bs)` after a backslash, or
`bs[i:i+2]` with `i+2 > cap(bs)`. -/
def parseLoop (spare : Nat) : Bytes → Bool → Bytes → List Bytes → Option (List Bytes)
  | [], _, _, parts => some parts
  | c :: bs, false, part, parts =>
    if c = 34 then parseLoop spare bs true [] parts
    else parseLoop spare bs false part parts
  | c :: bs, true, part, parts =>
    if c = 34 then parseLoop spare bs false part (parts ++ [part])
    else if c = 92 then
      match bs with
      | [] => none
      | e :: bs1 =>
        if e = 120 then
          if bs1.length + spare < 2 then none
          else
            let hexNum := (bs1 ++ List.replicate spare 0).take 2
            let part1 :=
              match ParseInt16 hexNum with
              | some ord => part ++ [toByte ord]
              | none => part
            match bs1 with
            | _ :: _ :: bs2 => parseLoop spare bs2 true part1 parts
            | _ => some parts
        else if e = 34 ∨ e = 92 then parseLoop spare bs1 true (part ++ [e]) parts
        else if e = 114 then parseLoop spare bs1 true (part ++ [13]) parts
        else if e = 97 then parseLoop spare bs1 true (part ++ [7]) parts
        else if e = 98 then parseLoop spare bs1 true (part ++ [8]) parts
        else if e = 110 then parseLoop spare bs1 true (part ++ [10]) parts
        else if e = 116 then parseLoop spare bs1 true (part ++ [9]) parts
        else parseLoop spare bs1 true part parts
    else parseLoop spare bs true (part ++ [c]) parts

/-- The same loop as `parseLoop`, returning the final `inQuotes` next to `parts`: whether
the line ends inside a quoted token. -/
def parseLoopEnd (spare : Nat) :
    Bytes → Bool → Bytes → List Bytes → Option (Bool × List Bytes)
  | [], q, _, parts => some (q, parts)
  | c :: bs, false, part, parts =>
    if c = 34 then parseLoopEnd spare bs true [] parts
    else parseLoopEnd spare bs false part parts
  | c :: bs, true, part, parts =>
    if c = 34 then parseLoopEnd spare bs false part (parts ++ [part])
    else if c = 92 then
      match bs with
      | [] => none
      | e :: bs1 =>
        if e = 120 then
          if bs1.length + spare < 2 then none
          else
            let hexNum := (bs1 ++ List.replicate spare 0).take 2
            let part1 :=
              match ParseInt16 hexNum with
              | some ord => part ++ [toByte ord]
              | none => part
            match bs1 with
            | _ :: _ :: bs2 => parseLoopEnd spare bs2 true part1 parts
            | _ => some (true, parts)
        else if e = 34 ∨ e = 92 then parseLoopEnd spare bs1 true (part ++ [e]) parts
        else if e = 114 then parseLoopEnd spare bs1 true (part ++ [13]) parts
        else if e = 97 then parseLoopEnd spare bs1 true (part ++ [7]) parts
        else if e = 98 then parseLoopEnd spare bs1 true (part ++ [8]) parts
        else if e = 110 then parseLoopEnd spare bs1 true (part ++ [10]) parts
        else if e = 116 then parseLoopEnd spare bs1 true (part ++ [9]) parts
        else parseLoopEnd spare bs1 true part parts
    else parseLoopEnd spare bs true (part ++ [c]) parts

/-- The function `parseRedisCommand(line string) RedisCommand`: `Raw` is the line; without
a decoded token the other fields keep their zero values, otherwise `Name` is the first
token, `Args` the others and `IArgs` all of them.  It is `none` when the loop panics. -/
def parseRedisCommand (spare : Nat) (line : Bytes) : Option RedisCommand :=
  match parseLoop spare line false [] [] with
  | none => none
  | some parts =>
    match parts with
    | [] => some { Name := [], Args := [], IArgs := [], Raw := line }
    | p0 :: ps => some { Name := p0, Args := ps, IArgs := p0 :: ps, Raw := line }

/-! ## The per-line step of `readMonitorOutput` -/

/-- The call `strings.IndexByte(s, c)`: the index of the first `c` in `s`, or `-1`. -/
def IndexByte (s : Bytes) (c : Nat) : Int :=
  if c ∈ s then Int.ofNat (s.indexOf c) else -1

/-- What one iteration of the `for scanner.Scan()` loop does with its line. -/
inductive LineOutcome where
  | crashed
  | skipped
  | emitted (cmd : RedisCommand)
deriving DecidableEq, Repr

/-- The body of the `for scanner.Scan()` loop of `readMonitorOutput` for one line:
`skipped` is `continue`, `emitted cmd` is `out <- cmd`, `crashed` is a panic inside
`parseRedisCommand`. -/
def lineStep (spare : Nat) (line : Bytes) : LineOutcome :=
  let i := IndexByte line 93
  if i < 0 then LineOutcome.skipped
  else
    let j := i + 2
    if j ≥ Int.ofNat line.length then LineOutcome.skipped
    else
      match parseRedisCommand spare (line.drop j.toNat) with
      | none => LineOutcome.crashed
      | some cmd => if cmd.Name = [] then LineOutcome.skipped else LineOutcome.emitted cmd

/-! ## Building monitor lines (used to state the claims) -/

/-- A token body wrapped in double quotes. -/
def quoted (body : Bytes) : Bytes := 34 :: (body ++ [34])

/-- Quoted tokens joined with single spaces. -/
def monitorLine (bodies : List Bytes) : Bytes :=
  List.intercalate [32] (bodies.map quoted)

/-- A byte string with no double quote and no backslash. -/
def Plain (w : Bytes) : Prop := ∀ c ∈ w, c ≠ 34 ∧ c ≠ 92

instance (w : Bytes) : Decidable (Plain w) := by
  unfold Plain; infer_instance

/-- The decoded tokens of a line: the `parts` of `parseRedisCommand`, which it returns
as `IArgs`. -/
def decodedTokens (spare : Nat) (line : Bytes) : Option (List Bytes) :=
  (parseRedisCommand spare line).map (fun cmd => cmd.IArgs)

/-- The seven one-character escapes with the byte each stands for:
`\"`, `\\`, `\r`, `\a`, `\b`, `\n`, `\t`. -/
def simpleEscapes : List (Nat × Nat) :=
  [(34, 34), (92, 92), (114, 13), (97, 7), (98, 8), (110, 10), (116, 9)]

/-- A hexadecimal digit character: `0-9`, `a-f`, `A-F`. -/
def IsHexDigit (c : Nat) : Prop :=
  (48 ≤ c ∧ c ≤ 57) ∨ (97 ≤ c ∧ c ≤ 102) ∨ (65 ≤ c ∧ c ≤ 70)

instance (c : Nat) : Decidable (IsHexDigit c) := by
  unfold IsHexDigit; infer_instance

/-- The value of a hexadecimal digit character. -/
def hexVal (c : Nat) : Nat :=
  if c ≤ 57 then c - 48 else if c ≤ 70 then c - 55 else c - 87

/-- The text `"b1" j1 "b2" j2 ... "bn" jn`: quoted token bodies, each followed by its
filler text. -/
def fillerTail : List (Bytes × Bytes) → Bytes
  | [] => []
  | it :: rest => quoted it.1 ++ it.2 ++ fillerTail rest

/-- The line `j0 "b1" j1 "b2" ... "bn" jn`. -/
def fillerLine (j0 : Bytes) (items : List (Bytes × Bytes)) : Bytes :=
  j0 ++ fillerTail items

/-! ## The monitor escaping of binary arguments (used to state the round trip) -/

/-- The lowercase hexadecimal digit character of a value below 16. -/
def hexDigitChar (d : Nat) : Nat := if d < 10 then 48 + d else 87 + d

/-- The escaping of one byte: backslash and the character for `"`, `\`, newline, carriage
return, tab, bell and backspace; the byte itself for any other printable ASCII byte; `\x`
and two lowercase hexadecimal digits for every other byte. -/
def encByte (b : Nat) : Bytes :=
  if b = 34 then [92, 34]
  else if b = 92 then [92, 92]
  else if b = 10 then [92, 110]
  else if b = 13 then [92, 114]
  else if b = 9 then [92, 116]
  else if b = 7 then [92, 97]
  else if b = 8 then [92, 98]
  else if 32 ≤ b ∧ b ≤ 126 then [b]
  else [92, 120, hexDigitChar (b / 16), hexDigitChar (b % 16)]

/-- The escaping of a byte string, byte by byte. -/
def enc : Bytes → Bytes
  | [] => []
  | b :: t => encByte b ++ enc t

/-! ## The Sink loop of `main` -/

/-- What the Sink loop does, in order: `log.Printf("%v", cmd.Raw)`,
`rdb.Do(ctx, cmd.IArgs...)`, and the log line for a call that reported an error. -/
inductive SinkEvent where
  | logRaw (raw : Bytes)
  | call (args : List Bytes)
  | logError (raw : Bytes)
deriving DecidableEq, Repr

/-- The body of `for cmd := range readMonitorOutput()` in `main` for one Command.  The
executor `exec` (the external `rdb.Do`) may keep a state of its own; the `Bool` it returns
is `err != nil`. -/
def sinkBody {σ : Type} (enableLog : Bool) (exec : σ → List Bytes → σ × Bool) (st : σ)
    (cmd : RedisCommand) : σ × List SinkEvent :=
  let logged := if enableLog then [SinkEvent.logRaw cmd.Raw] else []
  let r := exec st cmd.IArgs
  let failed := if r.2 then [SinkEvent.logError cmd.Raw] else []
  (r.1, logged ++ [SinkEvent.call cmd.IArgs] ++ failed)

/-- The Sink loop over the Commands it dequeues, in order. -/
def sinkLoop {σ : Type} (enableLog : Bool) (exec : σ → List Bytes → σ × Bool) :
    σ → List RedisCommand → List SinkEvent
  | _, [] => []
  | st, cmd :: rest =>
    (sinkBody enableLog exec st cmd).2
      ++ sinkLoop enableLog exec (sinkBody enableLog exec st cmd).1 rest

/-- The executor calls among the events, in order. -/
def callsOf : List SinkEvent → List (List Bytes)
  | [] => []
  | SinkEvent.call args :: rest => args :: callsOf rest
  | _ :: rest => callsOf rest

/-! ## The process: reader goroutine, channel and Sink -/

/-- The constant `chanBuffer = 100`, the capacity of the channel `out`. -/
def chanBuffer : Nat := 100

/-- The state of the running process: the lines the scanner has not returned yet, whether
the goroutine of `readMonitorOutput` has returned, the content of the buffered channel
`out` (oldest first), whether `out` has been closed, the Commands `main` has handed to the
executor (oldest first), whether the `range` loop of `main` has ended, and whether a
panic has ended the process. -/
structure Pipeline where
  input : List Bytes
  readerDone : Bool
  queue : List RedisCommand
  closed : Bool
  handed : List RedisCommand
  sinkDone : Bool
  crashed : Bool
deriving DecidableEq, Repr

/-- The two goroutines. -/
inductive Actor where
  | reader
  | sink
deriving DecidableEq, Repr

/-- The process at start: nothing read, empty open channel, nothing handed over. -/
def Pipeline.initial (lines : List Bytes) : Pipeline :=
  { input := lines, readerDone := false, queue := [], closed := false, handed := [],
    sinkDone := false, crashed := false }

/-- One move of a goroutine, `none` when it cannot move (blocked, returned, or the
process is dead).

The reader runs one iteration of `for scanner.Scan()`: `continue` drops the line, a
panic ends the process, `out <- cmd` needs room in the channel and blocks otherwise; when
`scanner.Scan()` returns false the goroutine returns, and the source has no `close(out)`.

The Sink runs one iteration of `for cmd := range out`: it receives the oldest Command and
hands it to the executor; on an empty channel it blocks, unless the channel is closed,
which ends the loop.  `spareOf` gives the spare capacity of the byte slice for a line. -/
def Pipeline.step (spareOf : Bytes → Nat) (s : Pipeline) : Actor → Option Pipeline
  | Actor.reader =>
    if s.crashed ∨ s.readerDone then none
    else
      match s.input with
      | [] => some { s with readerDone := true }
      | line :: rest =>
        match lineStep (spareOf line) line with
        | LineOutcome.skipped => some { s with input := rest }
        | LineOutcome.crashed => some { s with crashed := true }
        | LineOutcome.emitted cmd =>
          if s.queue.length < chanBuffer then
            some { s with input := rest, queue := s.queue ++ [cmd] }
          else none
  | Actor.sink =>
    if s.crashed ∨ s.sinkDone then none
    else
      match s.queue with
      | cmd :: q => some { s with queue := q, handed := s.handed ++ [cmd] }
      | [] => if s.closed then some { s with sinkDone := true } else none

/-- The process under a schedule: the goroutines move in the given order, a goroutine that
cannot move is passed over. -/
def Pipeline.run (spareOf : Bytes → Nat) : List Actor → Pipeline → Pipeline
  | [], s => s
  | a :: rest, s =>
    match Pipeline.step spareOf s a with
    | some s2 => Pipeline.run spareOf rest s2
    | none => Pipeline.run spareOf rest s

/-- The Commands the per-line step emits for a list of lines, in order. -/
def emittedOf (spareOf : Bytes → Nat) : List Bytes → List RedisCommand
  | [] => []
  | line :: rest =>
    match lineStep (spareOf line) line with
    | LineOutcome.emitted cmd => cmd :: emittedOf spareOf rest
    | _ => emittedOf spareOf rest

/-- What holds of the process in every reachable state when no line makes the parser
panic: no panic has happened, the Commands handed over, then those in the channel, then
those of the lines still to read are the Commands of all lines; the channel holds at most
`chanBuffer` Commands; the reader returns only at the end of the input. -/
def Pipeline.Inv (spareOf : Bytes → Nat) (lines : List Bytes) (s : Pipeline) : Prop :=
  s.crashed = false ∧
  s.handed ++ s.queue ++ emittedOf spareOf s.input = emittedOf spareOf lines ∧
  (∀ line ∈ s.input, lineStep (spareOf line) line ≠ LineOutcome.crashed) ∧
  s.queue.length ≤ chanBuffer ∧
  (s.readerDone = true → s.input = [])

/-- The schedule that lets the reader take one line and the Sink take one Command, `n`
times, and then lets the reader see the end of the input. -/
def alternating : Nat → List Actor
  | 0 => [Actor.reader]
  | n + 1 => Actor.reader :: Actor.sink :: alternating n

/-! ## Lemmas about the loop -/

theorem parseLoop_nil (spare : Nat) (q : Bool) (part : Bytes) (parts : List Bytes) :
    parseLoop spare [] q part parts = some parts := by
  cases q <;> rfl

theorem parseLoop_false_cons (spare : Nat) (c : Nat) (bs part : Bytes) (parts : List Bytes) :
    parseLoop spare (c :: bs) false part parts =
      if c = 34 then parseLoop spare bs true [] parts
      else parseLoop spare bs false part parts := rfl

theorem parseLoop_true_cons (spare : Nat) (c : Nat) (bs part : Bytes) (parts : List Bytes) :
    parseLoop spare (c :: bs) true part parts =
    if c = 34 then parseLoop spare bs false part (parts ++ [part])
    else if c = 92 then
      match bs with
      | [] => none
      | e :: bs1 =>
        if e = 120 then
          if bs1.length + spare < 2 then none
          else
            let hexNum := (bs1 ++ List.replicate spare 0).take 2
            let part1 :=
              match ParseInt16 hexNum with
              | some ord => part ++ [toByte ord]
              | none => part
            match bs1 with
            | _ :: _ :: bs2 => parseLoop spare bs2 true part1 parts
            | _ => some parts
        else if e = 34 ∨ e = 92 then parseLoop spare bs1 true (part ++ [e]) parts
        else if e = 114 then parseLoop spare bs1 true (part ++ [13]) parts
        else if e = 97 then parseLoop spare bs1 true (part ++ [7]) parts
        else if e = 98 then parseLoop spare bs1 true (part ++ [8]) parts
        else if e = 110 then parseLoop spare bs1 true (part ++ [10]) parts
        else if e = 116 then parseLoop spare bs1 true (part ++ [9]) parts
        else parseLoop spare bs1 true part parts
    else parseLoop spare bs true (part ++ [c]) parts := by
  cases bs with
  | nil => rfl
  | cons e bs1 =>
    cases bs1 with
    | nil => rfl
    | cons a bs2 =>
      cases bs2 with
      | nil => rfl
      | cons b bs3 => rfl

theorem parseLoop_open (spare : Nat) (bs part : Bytes) (parts : List Bytes) :
    parseLoop spare (34 :: bs) false part parts = parseLoop spare bs true [] parts := by
  rw [parseLoop_false_cons]; simp

theorem parseLoop_close (spare : Nat) (bs part : Bytes) (parts : List Bytes) :
    parseLoop spare (34 :: bs) true part parts
      = parseLoop spare bs false part (parts ++ [part]) := by
  rw [parseLoop_true_cons]; simp

theorem parseLoop_outside (spare : Nat) (c : Nat) (bs part : Bytes) (parts : List Bytes)
    (hc : c ≠ 34) :
    parseLoop spare (c :: bs) false part parts = parseLoop spare bs false part parts := by
  rw [parseLoop_false_cons]; simp [hc]

theorem parseLoop_plain_byte (spare : Nat) (c : Nat) (bs part : Bytes) (parts : List Bytes)
    (h1 : c ≠ 34) (h2 : c ≠ 92) :
    parseLoop spare (c :: bs) true part parts
      = parseLoop spare bs true (part ++ [c]) parts := by
  rw [parseLoop_true_cons]; simp [h1, h2]

/-- A backslash at the very end of the line: `bs[i]` is read with `i = len(bs)`. -/
theorem parseLoop_backslash_end (spare : Nat) (part : Bytes) (parts : List Bytes) :
    parseLoop spare [92] true part parts = none := by
  rw [parseLoop_true_cons]; simp

/-- The escape `\x` with two bytes behind it: both are consumed, and a byte is appended
exactly when `strconv.ParseInt` accepts them. -/
theorem parseLoop_hex (spare : Nat) (a b : Nat) (bs part : Bytes) (parts : List Bytes) :
    parseLoop spare (92 :: 120 :: a :: b :: bs) true part parts
      = parseLoop spare bs true
          (match ParseInt16 [a, b] with
            | some ord => part ++ [toByte ord]
            | none => part) parts := by
  rw [parseLoop_true_cons]
  have hlen : ¬ (bs.length + 1 + 1 + spare < 2) := by omega
  simp [hlen]

/-- A one-character escape that is recognised appends its byte. -/
theorem parseLoop_simple_escape (spare : Nat) (e v : Nat) (hev : (e, v) ∈ simpleEscapes)
    (bs part : Bytes) (parts : List Bytes) :
    parseLoop spare (92 :: e :: bs) true part parts
      = parseLoop spare bs true (part ++ [v]) parts := by
  rw [parseLoop_true_cons]
  simp only [simpleEscapes, List.mem_cons, Prod.mk.injEq, List.mem_nil_iff, or_false] at hev
  rcases hev with h | h | h | h | h | h | h <;> obtain ⟨rfl, rfl⟩ := h <;> simp

/-- A one-character escape that is not recognised appends nothing. -/
theorem parseLoop_unknown_escape (spare : Nat) (e : Nat)
    (he : e ∉ [120, 34, 92, 114, 97, 98, 110, 116])
    (bs part : Bytes) (parts : List Bytes) :
    parseLoop spare (92 :: e :: bs) true part parts = parseLoop spare bs true part parts := by
  rw [parseLoop_true_cons]
  simp only [List.mem_cons, List.mem_nil_iff, or_false, not_or] at he
  obtain ⟨h1, h2, h3, h4, h5, h6, h7, h8⟩ := he
  simp [h1, h2, h3, h4, h5, h6, h7, h8]

/-- Inside quotes, a run of bytes without quote or backslash is appended to `part`. -/
theorem parseLoop_plain (spare : Nat) (w : Bytes) (hw : Plain w) (bs part : Bytes)
    (parts : List Bytes) :
    parseLoop spare (w ++ bs) true part parts = parseLoop spare bs true (part ++ w) parts := by
  induction w generalizing part with
  | nil => simp
  | cons c w ih =>
    have hc := hw c (List.mem_cons_self c w)
    have hw2 : Plain w := fun d hd => hw d (List.mem_cons_of_mem c hd)
    rw [List.cons_append, parseLoop_plain_byte spare c _ part parts hc.1 hc.2, ih hw2]
    simp

/-- Outside quotes the content of `part` is never used: an opening quote resets it. -/
theorem parseLoop_outside_part (spare : Nat) (bs part part2 : Bytes) (parts : List Bytes) :
    parseLoop spare bs false part parts = parseLoop spare bs false part2 parts := by
  induction bs with
  | nil => simp [parseLoop_nil]
  | cons c bs ih =>
    by_cases hc : c = 34
    · subst hc; simp [parseLoop_open]
    · rw [parseLoop_outside spare c bs part parts hc, parseLoop_outside spare c bs part2 parts hc]
      exact ih

/-- A quoted plain token read from outside quotes commits exactly that token. -/
theorem parseLoop_quoted (spare : Nat) (w : Bytes) (hw : Plain w) (bs part : Bytes)
    (parts : List Bytes) :
    parseLoop spare (quoted w ++ bs) false part parts
      = parseLoop spare bs false [] (parts ++ [w]) := by
  unfold quoted
  rw [List.cons_append, parseLoop_open, List.append_assoc, parseLoop_plain spare w hw]
  rw [List.singleton_append, parseLoop_close, List.nil_append]
  exact parseLoop_outside_part spare bs w [] _

/-- Tokens committed earlier are carried through unchanged: the loop only ever appends
to `parts`. -/
theorem parseLoop_parts_append (spare : Nat) (pre : List Bytes) :
    ∀ (n : Nat) (bs : Bytes), bs.length ≤ n → ∀ (q : Bool) (part : Bytes) (parts : List Bytes),
      parseLoop spare bs q part (pre ++ parts)
        = (parseLoop spare bs q part parts).map (fun ts => pre ++ ts) := by
  intro n
  induction n with
  | zero =>
    intro bs hbs q part parts
    have : bs = [] := List.length_eq_zero.mp (Nat.le_zero.mp hbs)
    subst this
    simp [parseLoop_nil]
  | succ n ih =>
    intro bs hbs q part parts
    cases bs with
    | nil => simp [parseLoop_nil]
    | cons c bs =>
      have hl : bs.length ≤ n := by simpa using hbs
      cases q with
      | false =>
        rw [parseLoop_false_cons, parseLoop_false_cons]
        split_ifs
        · exact ih bs hl _ _ _
        · exact ih bs hl _ _ _
      | true =>
        rw [parseLoop_true_cons, parseLoop_true_cons]
        by_cases h34 : c = 34
        · simp only [h34, if_true]
          rw [List.append_assoc]
          exact ih bs hl _ _ _
        · simp only [h34, if_false]
          by_cases h92 : c = 92
          · simp only [h92, if_true]
            cases bs with
            | nil => simp
            | cons e bs1 =>
              have hl1 : bs1.length ≤ n := by
                simp only [List.length_cons] at hl; omega
              simp only []
              by_cases hx : e = 120
              · simp only [hx, if_true]
                by_cases hsp : bs1.length + spare < 2
                · simp [hsp]
                · simp only [hsp, if_false]
                  match bs1, hl1 with
                  | [], _ => simp
                  | [_], _ => simp
                  | _ :: _ :: bs2, hl2 =>
                    have hl3 : bs2.length ≤ n := by
                      simp only [List.length_cons] at hl2; omega
                    simp only []
                    exact ih bs2 hl3 _ _ _
              · simp only [hx, if_false]
                split_ifs <;> exact ih bs1 hl1 _ _ _
          · simp only [h92, if_false]
            exact ih bs hl _ _ _

theorem monitorLine_nil : monitorLine [] = [] := rfl

theorem monitorLine_singleton (w : Bytes) : monitorLine [w] = quoted w := by
  simp [monitorLine, List.intercalate]

theorem monitorLine_cons_cons (w w2 : Bytes) (ws : List Bytes) :
    monitorLine (w :: w2 :: ws) = quoted w ++ 32 :: monitorLine (w2 :: ws) := by
  simp [monitorLine, List.intercalate]

/-- A line of quoted plain tokens joined by spaces commits exactly those tokens. -/
theorem parseLoop_monitorLine (spare : Nat) (ws : List Bytes) (hws : ∀ w ∈ ws, Plain w)
    (part : Bytes) (parts : List Bytes) :
    parseLoop spare (monitorLine ws) false part parts = some (parts ++ ws) := by
  induction ws generalizing part parts with
  | nil => simp [monitorLine_nil, parseLoop_nil]
  | cons w ws ih =>
    have hw : Plain w := hws w (List.mem_cons_self w ws)
    have hrest : ∀ v ∈ ws, Plain v := fun v hv => hws v (List.mem_cons_of_mem w hv)
    cases ws with
    | nil =>
      rw [monitorLine_singleton]
      have := parseLoop_quoted spare w hw [] part parts
      rw [List.append_nil] at this
      rw [this, parseLoop_nil]
    | cons w2 ws =>
      rw [monitorLine_cons_cons, parseLoop_quoted spare w hw,
        parseLoop_outside spare 32 _ _ _ (by decide), ih hrest]
      simp

/-- What `parseRedisCommand` returns once the loop is known to produce `parts`. -/
theorem parseRedisCommand_of_loop (spare : Nat) (line : Bytes) (p0 : Bytes) (ps : List Bytes)
    (h : parseLoop spare line false [] [] = some (p0 :: ps)) :
    parseRedisCommand spare line
      = some { Name := p0, Args := ps, IArgs := p0 :: ps, Raw := line } := by
  simp [parseRedisCommand, h]

theorem digitVal_hex (c : Nat) (hc : IsHexDigit c) :
    digitVal c = some (hexVal c) ∧ hexVal c < 16 := by
  unfold IsHexDigit at hc
  unfold digitVal hexVal
  rcases hc with h | h | h
  · have h1 : 48 ≤ c ∧ c ≤ 57 := h
    have h2 : c ≤ 57 := h.2
    rw [if_pos h1, if_pos h2]
    exact ⟨rfl, by omega⟩
  · have h1 : ¬ (48 ≤ c ∧ c ≤ 57) := by omega
    have h2 : 97 ≤ c ∧ c ≤ 122 := by omega
    have h3 : ¬ c ≤ 57 := by omega
    have h4 : ¬ c ≤ 70 := by omega
    rw [if_neg h1, if_pos h2, if_neg h3, if_neg h4]
    exact ⟨congrArg some (by omega), by omega⟩
  · have h1 : ¬ (48 ≤ c ∧ c ≤ 57) := by omega
    have h2 : ¬ (97 ≤ c ∧ c ≤ 122) := by omega
    have h3 : 65 ≤ c ∧ c ≤ 90 := by omega
    have h4 : ¬ c ≤ 57 := by omega
    have h5 : c ≤ 70 := by omega
    rw [if_neg h1, if_neg h2, if_pos h3, if_neg h4, if_pos h5]
    exact ⟨congrArg some (by omega), by omega⟩

/-- A byte that is no hexadecimal digit makes the digit loop fail. -/
theorem parseUintLoop_not_hex (c : Nat) (hc : ¬ IsHexDigit c) (cs : Bytes) (n : Nat) :
    parseUintLoop (c :: cs) n = none := by
  unfold IsHexDigit at hc
  rw [parseUintLoop]
  unfold digitVal
  split_ifs with h1 h2 h3
  · exfalso; omega
  · have : ¬ (c - 97 + 10 < 16) := by omega
    simp; omega
  · simp; omega
  · rfl

/-- Two hexadecimal digits parse to their value. -/
theorem ParseInt16_hex (h1 h2 : Nat) (hh1 : IsHexDigit h1) (hh2 : IsHexDigit h2) :
    ParseInt16 [h1, h2] = some (Int.ofNat (16 * hexVal h1 + hexVal h2)) := by
  obtain ⟨d1, l1⟩ := digitVal_hex h1 hh1
  obtain ⟨d2, l2⟩ := digitVal_hex h2 hh2
  have n43 : h1 ≠ 43 := by unfold IsHexDigit at hh1; omega
  have n45 : h1 ≠ 45 := by unfold IsHexDigit at hh1; omega
  have a1 : ¬ (hexVal h1 ≥ 16) := by omega
  have a2 : ¬ (hexVal h2 ≥ 16) := by omega
  have a3 : ¬ (0 * 16 + hexVal h1 > 65535) := by omega
  have a4 : ¬ ((0 * 16 + hexVal h1) * 16 + hexVal h2 > 65535) := by omega
  have a5 : ¬ ((0 * 16 + hexVal h1) * 16 + hexVal h2 ≥ 32768) := by omega
  have hu : ParseUint16 [h1, h2] = some ((0 * 16 + hexVal h1) * 16 + hexVal h2) := by
    simp only [ParseUint16, parseUintLoop, d1, d2, a1, a2, a3, a4, if_false]
  simp only [ParseInt16, n43, n45, if_false, hu, a5]
  congr 2
  omega

theorem toByte_small (n : Nat) (hn : n < 256) : toByte (Int.ofNat n) = n := by
  unfold toByte
  have : (Int.ofNat n) % 256 = Int.ofNat n := Int.emod_eq_of_lt (by simp) (by simp; omega)
  rw [this]; simp

/-! ## Lemmas about `parseRedisCommand` and the per-line step -/

theorem parseRedisCommand_nil (spare : Nat) :
    parseRedisCommand spare [] = some { Name := [], Args := [], IArgs := [], Raw := [] } := by
  simp [parseRedisCommand, parseLoop_nil]

/-- The decoded tokens are the `parts` the loop ends with. -/
theorem decodedTokens_eq_loop (spare : Nat) (line : Bytes) :
    decodedTokens spare line = parseLoop spare line false [] [] := by
  unfold decodedTokens parseRedisCommand
  cases parseLoop spare line false [] [] with
  | none => rfl
  | some parts => cases parts <;> rfl

theorem IndexByte_absent (line : Bytes) (c : Nat) (h : c ∉ line) : IndexByte line c = -1 := by
  simp [IndexByte, h]

theorem IndexByte_first (pre rest : Bytes) (c : Nat) (h : c ∉ pre) :
    IndexByte (pre ++ c :: rest) c = Int.ofNat pre.length := by
  have hm : c ∈ pre ++ c :: rest := by simp
  simp [IndexByte, List.indexOf_append_of_not_mem h]

theorem lineStep_absent (spare : Nat) (line : Bytes) (h : 93 ∉ line) :
    lineStep spare line = LineOutcome.skipped := by
  simp [lineStep, IndexByte_absent line 93 h]

theorem lineStep_bracket_last (spare : Nat) (pre : Bytes) (h : 93 ∉ pre) :
    lineStep spare (pre ++ [93]) = LineOutcome.skipped := by
  unfold lineStep
  rw [IndexByte_first pre [] 93 h]
  simp

theorem lineStep_bracket (spare : Nat) (pre : Bytes) (h : 93 ∉ pre) (sep : Nat) (r : Bytes) :
    lineStep spare (pre ++ 93 :: sep :: r) =
      match parseRedisCommand spare r with
      | none => LineOutcome.crashed
      | some cmd => if cmd.Name = [] then LineOutcome.skipped else LineOutcome.emitted cmd := by
  unfold lineStep
  rw [IndexByte_first pre (sep :: r) 93 h]
  cases r with
  | nil => simp [parseRedisCommand_nil]
  | cons a r =>
    have h1 : ¬ (Int.ofNat pre.length < 0) := by simp
    have h2 : ¬ (Int.ofNat pre.length + 2 ≥ Int.ofNat (pre ++ 93 :: sep :: a :: r).length) := by
      simp only [List.length_append, List.length_cons, Int.ofNat_eq_coe]
      omega
    have h3 : (Int.ofNat pre.length + 2).toNat = pre.length + 2 := by
      simp only [Int.ofNat_eq_coe]; omega
    have h4 : List.drop (pre.length + 2) (pre ++ 93 :: sep :: a :: r) = a :: r := by
      rw [List.drop_append]
      rfl
    simp only [h1, h2, if_false, h3, h4]

theorem lineStep_emitted_name (spare : Nat) (line : Bytes) (cmd : RedisCommand)
    (h : lineStep spare line = LineOutcome.emitted cmd) : cmd.Name ≠ [] := by
  unfold lineStep at h
  simp only [] at h
  split_ifs at h
  split at h
  · cases h
  · split_ifs at h with hn
    cases h
    exact hn

/-- Two bytes of which the first is neither a hexadecimal digit nor a sign, or the second
is no hexadecimal digit after a sign, are rejected by `strconv.ParseInt`. -/
theorem ParseInt16_not_hex (c1 c2 : Nat) (h1 : ¬ IsHexDigit c1) (h2 : ¬ IsHexDigit c2) :
    ParseInt16 [c1, c2] = none := by
  have hu1 : ParseUint16 [c2] = none := by
    simp only [ParseUint16]; exact parseUintLoop_not_hex c2 h2 [] 0
  have hu2 : ParseUint16 [c1, c2] = none := by
    simp only [ParseUint16]; exact parseUintLoop_not_hex c1 h1 [c2] 0
  unfold ParseInt16
  simp only [hu1, hu2]
  split_ifs <;> rfl

/-- One hexadecimal digit parses to its value. -/
theorem ParseUint16_single_hex (c : Nat) (hc : IsHexDigit c) :
    ParseUint16 [c] = some (hexVal c) := by
  obtain ⟨d, l⟩ := digitVal_hex c hc
  have a1 : ¬ (hexVal c ≥ 16) := by omega
  have a2 : ¬ (0 * 16 + hexVal c > 65535) := by omega
  simp only [ParseUint16, parseUintLoop, d, a1, a2, if_false]
  congr 1
  omega

/-- A hexadecimal digit followed by a byte that is none is rejected. -/
theorem ParseUint16_hex_then_not_hex (c1 c2 : Nat) (h1 : IsHexDigit c1) (h2 : ¬ IsHexDigit c2) :
    ParseUint16 [c1, c2] = none := by
  obtain ⟨d, l⟩ := digitVal_hex c1 h1
  have a1 : ¬ (hexVal c1 ≥ 16) := by omega
  have a2 : ¬ (0 * 16 + hexVal c1 > 65535) := by omega
  have hu : ParseUint16 [c1, c2] = parseUintLoop [c2] (0 * 16 + hexVal c1) := by
    simp only [ParseUint16]
    rw [parseUintLoop]
    simp only [d, a1, a2, if_false]
  rw [hu]
  exact parseUintLoop_not_hex c2 h2 [] _

/-- Exactly which two bytes `strconv.ParseInt(s, 16, 16)` rejects: those that are neither
two hexadecimal digits nor a sign followed by a hexadecimal digit. -/
theorem ParseInt16_pair_none_iff (c1 c2 : Nat) :
    ParseInt16 [c1, c2] = none ↔
      ¬ (IsHexDigit c1 ∧ IsHexDigit c2) ∧ ¬ ((c1 = 43 ∨ c1 = 45) ∧ IsHexDigit c2) := by
  by_cases h2 : IsHexDigit c2
  · have l2 := (digitVal_hex c2 h2).2
    by_cases hp : c1 = 43
    · subst hp
      have a : ¬ (hexVal c2 ≥ 32768) := by omega
      simp [ParseInt16, ParseUint16_single_hex c2 h2, a, h2]
    · by_cases hm : c1 = 45
      · subst hm
        have a : ¬ (hexVal c2 > 32768) := by omega
        simp [ParseInt16, ParseUint16_single_hex c2 h2, a, h2]
      · by_cases h1 : IsHexDigit c1
        · rw [ParseInt16_hex c1 c2 h1 h2]
          simp [h1, h2]
        · have hu : ParseUint16 [c1, c2] = none := by
            simp only [ParseUint16]; exact parseUintLoop_not_hex c1 h1 [c2] 0
          simp [ParseInt16, hp, hm, hu, h1]
  · have hu1 : ParseUint16 [c2] = none := by
      simp only [ParseUint16]; exact parseUintLoop_not_hex c2 h2 [] 0
    have hu2 : ParseUint16 [c1, c2] = none := by
      by_cases h1 : IsHexDigit c1
      · exact ParseUint16_hex_then_not_hex c1 c2 h1 h2
      · simp only [ParseUint16]; exact parseUintLoop_not_hex c1 h1 [c2] 0
    have : ParseInt16 [c1, c2] = none := by
      unfold ParseInt16
      simp only [hu1, hu2]
      split_ifs <;> rfl
    simp [this, h2]

/-- The escape `\x` followed by two bytes that `strconv.ParseInt` rejects appends nothing
and resumes behind the two bytes. -/
theorem parseLoop_bad_hex (spare : Nat) (a b : Nat) (h : ParseInt16 [a, b] = none)
    (bs part : Bytes) (parts : List Bytes) :
    parseLoop spare (92 :: 120 :: a :: b :: bs) true part parts
      = parseLoop spare bs true part parts := by
  rw [parseLoop_hex, h]

/-! ## Claims about well-formed lines -/

/-- C1: a line of quoted tokens without double quote or backslash (printable ASCII in
particular), joined by single spaces, parses to `Name` = the first token, `Args` = the
others in order and unchanged, `Raw` = the line. -/
theorem parse_plain_roundtrip (spare : Nat) (w0 : Bytes) (ws : List Bytes)
    (h : ∀ w ∈ w0 :: ws, Plain w) :
    parseRedisCommand spare (monitorLine (w0 :: ws))
      = some { Name := w0, Args := ws, IArgs := w0 :: ws, Raw := monitorLine (w0 :: ws) } := by
  apply parseRedisCommand_of_loop
  rw [parseLoop_monitorLine spare (w0 :: ws) h]
  simp

theorem parse_plain_roundtrip_witness :
    (∀ w ∈ [ascii "GET", ascii "k 1", []], Plain w) ∧
    parseRedisCommand 0 (ascii "\"GET\" \"k 1\" \"\"")
      = some { Name := ascii "GET", Args := [ascii "k 1", []],
               IArgs := [ascii "GET", ascii "k 1", []],
               Raw := ascii "\"GET\" \"k 1\" \"\"" } :=
  ⟨by decide, parse_plain_roundtrip 0 (ascii "GET") [ascii "k 1", []] (by decide)⟩

/-- C2: inside a quoted token whose other bytes are plain, each of the seven simple
escapes decodes to its byte: the line yields exactly one token `p ++ [v] ++ s`. -/
theorem parse_simple_escape (spare : Nat) (p s : Bytes) (e v : Nat)
    (hp : Plain p) (hs : Plain s) (hev : (e, v) ∈ simpleEscapes) :
    parseRedisCommand spare (quoted (p ++ [92, e] ++ s))
      = some { Name := p ++ [v] ++ s, Args := [], IArgs := [p ++ [v] ++ s],
               Raw := quoted (p ++ [92, e] ++ s) } := by
  apply parseRedisCommand_of_loop
  unfold quoted
  rw [parseLoop_open]
  simp only [List.append_assoc, List.cons_append, List.nil_append]
  rw [parseLoop_plain spare p hp, parseLoop_simple_escape spare e v hev,
    parseLoop_plain spare s hs, parseLoop_close, parseLoop_nil]
  simp

theorem parse_simple_escape_witness :
    (Plain (ascii "a") ∧ Plain (ascii "b") ∧ (110, 10) ∈ simpleEscapes) ∧
    parseRedisCommand 0 (ascii "\"a\\nb\"")
      = some { Name := [97, 10, 98], Args := [], IArgs := [[97, 10, 98]],
               Raw := ascii "\"a\\nb\"" } :=
  ⟨by decide, parse_simple_escape 0 (ascii "a") (ascii "b") 110 10
    (by decide) (by decide) (by decide)⟩

/-- C3: inside a quoted token whose other bytes are plain, `\x` followed by two
hexadecimal digits of any case consumes exactly those two digits and appends exactly the
byte `16 * val h1 + val h2`. -/
theorem parse_hex_escape (spare : Nat) (p s : Bytes) (h1 h2 : Nat)
    (hp : Plain p) (hs : Plain s) (hh1 : IsHexDigit h1) (hh2 : IsHexDigit h2) :
    parseRedisCommand spare (quoted (p ++ [92, 120, h1, h2] ++ s))
      = some { Name := p ++ [16 * hexVal h1 + hexVal h2] ++ s, Args := [],
               IArgs := [p ++ [16 * hexVal h1 + hexVal h2] ++ s],
               Raw := quoted (p ++ [92, 120, h1, h2] ++ s) } := by
  apply parseRedisCommand_of_loop
  have l1 := (digitVal_hex h1 hh1).2
  have l2 := (digitVal_hex h2 hh2).2
  unfold quoted
  rw [parseLoop_open]
  simp only [List.append_assoc, List.cons_append, List.nil_append]
  rw [parseLoop_plain spare p hp, parseLoop_hex, ParseInt16_hex h1 h2 hh1 hh2]
  simp only []
  rw [toByte_small _ (by omega), parseLoop_plain spare s hs, parseLoop_close, parseLoop_nil]
  simp

theorem parse_hex_escape_witness :
    (Plain [] ∧ IsHexDigit 52 ∧ IsHexDigit 49) ∧
    parseRedisCommand 0 (ascii "\"\\x41\"")
      = some { Name := [0x41], Args := [], IArgs := [[0x41]], Raw := ascii "\"\\x41\"" } :=
  ⟨by decide, parse_hex_escape 0 [] [] 52 49 (by decide) (by decide) (by decide) (by decide)⟩

/-! ## Claims about the per-line step -/

/-- C4: for a line with a `]`, let `r` be the text after the first `]` and the one
character behind it.  The per-line step emits `parseRedisCommand r` when its `Name` is
non-empty and emits nothing otherwise (nothing at all is behind the `]`, `r` is empty,
the `Name` is empty, or the parser panics); a later `]` in `r` is ordinary text; every
emitted Command has a non-empty `Name`. -/
theorem lineStep_strips_to_first_bracket (spare : Nat) (pre : Bytes) (hpre : 93 ∉ pre) :
    lineStep spare (pre ++ [93]) = LineOutcome.skipped ∧
    (∀ (sep : Nat) (r : Bytes),
      lineStep spare (pre ++ 93 :: sep :: r) =
        match parseRedisCommand spare r with
        | none => LineOutcome.crashed
        | some cmd =>
          if cmd.Name = [] then LineOutcome.skipped else LineOutcome.emitted cmd) ∧
    (∀ (line : Bytes) (cmd : RedisCommand),
      lineStep spare line = LineOutcome.emitted cmd → cmd.Name ≠ []) :=
  ⟨lineStep_bracket_last spare pre hpre, lineStep_bracket spare pre hpre,
    lineStep_emitted_name spare⟩

theorem lineStep_strips_to_first_bracket_witness :
    93 ∉ ascii "1 [0 x" ∧
    lineStep 0 (ascii "1 [0 x] \"a]\" \"]\"")
      = LineOutcome.emitted { Name := ascii "a]", Args := [ascii "]"],
                              IArgs := [ascii "a]", ascii "]"],
                              Raw := ascii "\"a]\" \"]\"" } :=
  ⟨by decide,
    ((lineStep_strips_to_first_bracket 0 (ascii "1 [0 x") (by decide)).2.1 32
      (ascii "\"a]\" \"]\"")).trans (by decide)⟩

/-- C5: a line without `]` emits no Command, whatever quoted tokens it contains. -/
theorem lineStep_no_bracket_skipped (spare : Nat) (line : Bytes) (h : 93 ∉ line) :
    lineStep spare line = LineOutcome.skipped :=
  lineStep_absent spare line h

theorem lineStep_no_bracket_skipped_witness :
    93 ∉ ascii "\"SET\" \"k\" \"v\"" ∧
    lineStep 0 (ascii "\"SET\" \"k\" \"v\"") = LineOutcome.skipped :=
  ⟨by decide, lineStep_no_bracket_skipped 0 (ascii "\"SET\" \"k\" \"v\"") (by decide)⟩

/-- C6: the monitor line of the specification's end-to-end example emits exactly one
Command, with `Name = "HSET"`, the three arguments in order, and the executor argument
list `IArgs` equal to the name followed by those three arguments. -/
theorem lineStep_hset_example (spare : Nat) :
    lineStep spare (ascii
      "1592134898.858273 [0 192.168.23.10:33072] \"HSET\" \"wh:7134878504547625\" \"207108\" \"abc\"")
      = LineOutcome.emitted
          { Name := ascii "HSET",
            Args := [ascii "wh:7134878504547625", ascii "207108", ascii "abc"],
            IArgs := [ascii "HSET", ascii "wh:7134878504547625", ascii "207108", ascii "abc"],
            Raw := ascii "\"HSET\" \"wh:7134878504547625\" \"207108\" \"abc\"" } := by
  have hline : ascii
      "1592134898.858273 [0 192.168.23.10:33072] \"HSET\" \"wh:7134878504547625\" \"207108\" \"abc\""
      = ascii "1592134898.858273 [0 192.168.23.10:33072" ++ 93 :: 32 ::
          monitorLine [ascii "HSET", ascii "wh:7134878504547625", ascii "207108", ascii "abc"] := by
    decide
  have hraw : ascii "\"HSET\" \"wh:7134878504547625\" \"207108\" \"abc\""
      = monitorLine [ascii "HSET", ascii "wh:7134878504547625", ascii "207108", ascii "abc"] := by
    decide
  have hplain : ∀ w ∈ [ascii "HSET", ascii "wh:7134878504547625", ascii "207108", ascii "abc"],
      Plain w := by decide
  rw [hline, hraw, lineStep_bracket spare _ (by decide),
    parseRedisCommand_of_loop spare _ (ascii "HSET")
      [ascii "wh:7134878504547625", ascii "207108", ascii "abc"]
      (by rw [parseLoop_monitorLine spare _ hplain]; rfl)]
  simp only []
  rw [if_neg (by decide)]

/-! ## Claims about decode errors -/

/-- C7: an escape character other than `x " \ r a b n t` contributes no byte, and the
rest of the line decodes exactly as it does alone: the tokens of
`"p\cs"` followed by `rest` are `p ++ s` followed by the tokens of `rest` (and the parser
panics on the whole line exactly when it panics on `rest`). -/
theorem unknown_escape_dropped (spare : Nat) (c : Nat) (p s rest : Bytes)
    (hc : c ∉ [120, 34, 92, 114, 97, 98, 110, 116]) (hp : Plain p) (hs : Plain s) :
    decodedTokens spare (quoted (p ++ [92, c] ++ s) ++ rest)
      = (decodedTokens spare rest).map (fun ts => (p ++ s) :: ts) := by
  rw [decodedTokens_eq_loop, decodedTokens_eq_loop]
  unfold quoted
  simp only [List.append_assoc, List.cons_append, List.nil_append]
  rw [parseLoop_open, parseLoop_plain spare p hp, parseLoop_unknown_escape spare c hc,
    parseLoop_plain spare s hs, parseLoop_close,
    parseLoop_outside_part spare rest _ [] _]
  have := parseLoop_parts_append spare [p ++ s] rest.length rest (le_refl _) false [] []
  simpa using this

theorem unknown_escape_dropped_witness :
    (113 ∉ [120, 34, 92, 114, 97, 98, 110, 116] ∧ Plain (ascii "a") ∧ Plain (ascii "b")) ∧
    decodedTokens 0 (ascii "\"a\\qb\" \"c\\n\"") = some [ascii "ab", [99, 10]] :=
  ⟨by decide,
    (unknown_escape_dropped 0 113 (ascii "a") (ascii "b") (ascii " \"c\\n\"")
      (by decide) (by decide) (by decide)).trans (by decide)⟩

/-- C8: the escape `\x` followed by a sign and a hexadecimal digit is accepted by
`strconv.ParseInt`, so a byte is appended although the two characters are not both
hexadecimal digits: `"\x+1"` decodes to the byte 1 and `"\x-1"` to the byte 255, while
the same lines without the four escape characters decode to the empty token; the per-line
step forwards the Command with the name byte 1. -/
theorem signed_hex_escape_appends_byte (spare : Nat) :
    ¬ IsHexDigit 43 ∧ ¬ IsHexDigit 45 ∧
    decodedTokens spare (ascii "\"\\x+1\"") = some [[1]] ∧
    decodedTokens spare (ascii "\"\\x-1\"") = some [[255]] ∧
    decodedTokens spare (ascii "\"\"") = some [[]] ∧
    lineStep spare (ascii "1 [0 x] \"\\x+1\"")
      = LineOutcome.emitted
          { Name := [1], Args := [], IArgs := [[1]], Raw := ascii "\"\\x+1\"" } := by
  have e4 : ascii "1 [0 x] \"\\x+1\"" = ascii "1 [0 x" ++ 93 :: 32 :: ascii "\"\\x+1\"" := by
    decide
  have e1 : ascii "\"\\x+1\"" = 34 :: 92 :: 120 :: 43 :: 49 :: [34] := by decide
  have e2 : ascii "\"\\x-1\"" = 34 :: 92 :: 120 :: 45 :: 49 :: [34] := by decide
  have e3 : ascii "\"\"" = 34 :: [34] := by decide
  have p1 : ParseInt16 [43, 49] = some 1 := by decide
  have p2 : ParseInt16 [45, 49] = some (-1) := by decide
  have b1 : toByte 1 = 1 := by decide
  have b2 : toByte (-1) = 255 := by decide
  have l1 : parseLoop spare (ascii "\"\\x+1\"") false [] [] = some [[1]] := by
    rw [e1, parseLoop_open, parseLoop_hex, p1, parseLoop_close, parseLoop_nil]
    simp [b1]
  refine ⟨by decide, by decide, ?_, ?_, ?_, ?_⟩
  · rw [decodedTokens_eq_loop, e1, parseLoop_open, parseLoop_hex, p1, parseLoop_close,
      parseLoop_nil]
    simp [b1]
  · rw [decodedTokens_eq_loop, e2, parseLoop_open, parseLoop_hex, p2, parseLoop_close,
      parseLoop_nil]
    simp [b2]
  · rw [decodedTokens_eq_loop, e3, parseLoop_open, parseLoop_close, parseLoop_nil]
    simp
  · rw [e4, lineStep_bracket spare _ (by decide), parseRedisCommand_of_loop spare _ [1] [] l1]
    simp only []
    rw [if_neg (by decide)]

/-- C9 as stated fails: with fewer than two characters behind `\x` the closing quote of
the first token is consumed as part of the escape, and the second token is not decoded.
`"\xZ" "abc"` decodes to the single token `" "` and `"\x" "abc"` to the single empty
token. -/
theorem short_hex_escape_loses_next_token :
    (∀ spare : Nat, decodedTokens spare (ascii "\"\\xZ\" \"abc\"") = some [[32]]) ∧
    (∀ spare : Nat, decodedTokens spare (ascii "\"\\x\" \"abc\"") = some [[]]) := by
  have e1 : ascii "\"\\xZ\" \"abc\""
      = 34 :: 92 :: 120 :: 90 :: 34 :: 32 :: 34 :: 97 :: 98 :: 99 :: [34] := by decide
  have e2 : ascii "\"\\x\" \"abc\""
      = 34 :: 92 :: 120 :: 34 :: 32 :: 34 :: 97 :: 98 :: 99 :: [34] := by decide
  have p1 : ParseInt16 [90, 34] = none := by decide
  have p2 : ParseInt16 [34, 32] = none := by decide
  constructor
  · intro spare
    rw [decodedTokens_eq_loop, e1, parseLoop_open, parseLoop_bad_hex spare 90 34 p1,
      parseLoop_plain_byte spare 32 _ _ _ (by decide) (by decide), parseLoop_close,
      parseLoop_outside spare 97 _ _ _ (by decide), parseLoop_outside spare 98 _ _ _ (by decide),
      parseLoop_outside spare 99 _ _ _ (by decide), parseLoop_open, parseLoop_nil]
    rfl
  · intro spare
    rw [decodedTokens_eq_loop, e2, parseLoop_open, parseLoop_bad_hex spare 34 32 p2,
      parseLoop_close,
      parseLoop_outside spare 97 _ _ _ (by decide), parseLoop_outside spare 98 _ _ _ (by decide),
      parseLoop_outside spare 99 _ _ _ (by decide), parseLoop_open, parseLoop_nil]
    rfl

/-- C9 amended: when the body of the first token is `\x` followed by exactly two
characters, neither a hexadecimal digit, a double quote nor a backslash, no byte is
appended for it and the second token still decodes as its body: the tokens of the line are
the empty token and `B2`. -/
theorem bad_hex_escape_keeps_next_token (spare : Nat) (c1 c2 : Nat) (B2 : Bytes)
    (h1 : ¬ IsHexDigit c1 ∧ c1 ≠ 34 ∧ c1 ≠ 92) (h2 : ¬ IsHexDigit c2 ∧ c2 ≠ 34 ∧ c2 ≠ 92)
    (hB : Plain B2) :
    decodedTokens spare (monitorLine [[92, 120, c1, c2], B2]) = some [[], B2] := by
  rw [decodedTokens_eq_loop, monitorLine_cons_cons, monitorLine_singleton]
  have hq : quoted [92, 120, c1, c2] = 34 :: 92 :: 120 :: c1 :: c2 :: [34] := rfl
  rw [hq]
  simp only [List.cons_append, List.nil_append]
  rw [parseLoop_open, parseLoop_bad_hex spare c1 c2 (ParseInt16_not_hex c1 c2 h1.1 h2.1),
    parseLoop_close, parseLoop_outside spare 32 _ _ _ (by decide)]
  have := parseLoop_quoted spare B2 hB [] [] ([] ++ [[]])
  rw [List.append_nil] at this
  rw [this, parseLoop_nil]
  rfl

theorem bad_hex_escape_keeps_next_token_witness :
    ((¬ IsHexDigit 90 ∧ 90 ≠ 34 ∧ 90 ≠ 92) ∧ (¬ IsHexDigit 43 ∧ 43 ≠ 34 ∧ 43 ≠ 92) ∧
      Plain (ascii "abc")) ∧
    decodedTokens 0 (ascii "\"\\xZ+\" \"abc\"") = some [[], ascii "abc"] :=
  ⟨by decide,
    bad_hex_escape_keeps_next_token 0 90 43 (ascii "abc") (by decide) (by decide) (by decide)⟩

/-- C10: a line that ends inside a quoted token with a lone backslash makes
`parseRedisCommand` read `bs[i]` with `i = len(bs)`: it panics, for every capacity of the
byte slice, and the token completed before is not returned; the per-line step panics with
it.  With no spare capacity the same holds for a line ending in `\x` and one character. -/
theorem truncated_escape_panics (spare : Nat) :
    parseRedisCommand spare (ascii "\"a\" \"\\") = none ∧
    lineStep spare (ascii "1 [0 x] \"a\" \"\\") = LineOutcome.crashed ∧
    parseRedisCommand 0 (ascii "\"a\" \"\\x4") = none := by
  have e1 : ascii "\"a\" \"\\" = 34 :: 97 :: 34 :: 32 :: 34 :: [92] := by decide
  have e2 : ascii "1 [0 x] \"a\" \"\\" = ascii "1 [0 x" ++ 93 :: 32 :: ascii "\"a\" \"\\" := by
    decide
  have hp : parseRedisCommand spare (ascii "\"a\" \"\\") = none := by
    unfold parseRedisCommand
    rw [e1, parseLoop_open, parseLoop_plain_byte spare 97 _ _ _ (by decide) (by decide),
      parseLoop_close, parseLoop_outside spare 32 _ _ _ (by decide), parseLoop_open,
      parseLoop_backslash_end]
  refine ⟨hp, ?_, by decide⟩
  rw [e2, lineStep_bracket spare _ (by decide), hp]

/-! ## Claims about separators, empty names and unterminated tokens -/

/-- Outside quotes, a run of bytes without a double quote is skipped. -/
theorem parseLoop_filler (spare : Nat) (j : Bytes) (hj : 34 ∉ j) (bs part : Bytes)
    (parts : List Bytes) :
    parseLoop spare (j ++ bs) false part parts = parseLoop spare bs false part parts := by
  induction j with
  | nil => rfl
  | cons c j ih =>
    have hc : c ≠ 34 := fun h => hj (h ▸ List.mem_cons_self c j)
    have hj2 : 34 ∉ j := fun h => hj (List.mem_cons_of_mem c h)
    rw [List.cons_append, parseLoop_outside spare c _ part parts hc]
    exact ih hj2

theorem parseLoop_fillerTail (spare : Nat) (items : List (Bytes × Bytes))
    (h : ∀ it ∈ items, Plain it.1 ∧ 34 ∉ it.2) (part : Bytes) (parts : List Bytes) :
    parseLoop spare (fillerTail items) false part parts
      = some (parts ++ items.map Prod.fst) := by
  induction items generalizing part parts with
  | nil => simp [fillerTail, parseLoop_nil]
  | cons it items ih =>
    have hit := h it (List.mem_cons_self it items)
    have hrest : ∀ x ∈ items, Plain x.1 ∧ 34 ∉ x.2 :=
      fun x hx => h x (List.mem_cons_of_mem it hx)
    rw [fillerTail, List.append_assoc, parseLoop_quoted spare it.1 hit.1,
      parseLoop_filler spare it.2 hit.2, ih hrest]
    simp

theorem parseLoop_fillerLine (spare : Nat) (j0 : Bytes) (items : List (Bytes × Bytes))
    (h0 : 34 ∉ j0) (h : ∀ it ∈ items, Plain it.1 ∧ 34 ∉ it.2) :
    parseLoop spare (fillerLine j0 items) false [] [] = some (items.map Prod.fst) := by
  rw [fillerLine, parseLoop_filler spare j0 h0, parseLoop_fillerTail spare items h]
  simp

/-- C14: characters outside quotes never affect the decoded tokens.  With token bodies
free of double quote and backslash and fillers free of double quote (backslashes
allowed), the line `j0 "b1" j1 ... "bn" jn` decodes exactly `[b1, ..., bn]`, as does the
line with every filler replaced by a single space. -/
theorem fillers_are_ignored (spare : Nat) (j0 : Bytes) (items : List (Bytes × Bytes))
    (h0 : 34 ∉ j0) (h : ∀ it ∈ items, Plain it.1 ∧ 34 ∉ it.2) :
    decodedTokens spare (fillerLine j0 items) = some (items.map Prod.fst) ∧
    decodedTokens spare (fillerLine j0 items)
      = decodedTokens spare (fillerLine [32] (items.map (fun it => (it.1, [32])))) := by
  have hs : ∀ it ∈ items.map (fun it : Bytes × Bytes => (it.1, ([32] : Bytes))),
      Plain it.1 ∧ 34 ∉ it.2 := by
    intro it hit
    obtain ⟨x, hx, rfl⟩ := List.mem_map.mp hit
    exact ⟨(h x hx).1, by simp⟩
  have e1 := parseLoop_fillerLine spare j0 items h0 h
  have e2 := parseLoop_fillerLine spare [32] _ (by decide) hs
  rw [decodedTokens_eq_loop, decodedTokens_eq_loop, e1, e2]
  simp [Function.comp_def]

theorem fillers_are_ignored_witness :
    (34 ∉ ascii "\\x, " ∧
      ∀ it ∈ [(ascii "a", ascii " \\ "), (ascii "b", ascii "\\n]")], Plain it.1 ∧ 34 ∉ it.2) ∧
    decodedTokens 0 (ascii "\\x, \"a\" \\ \"b\"\\n]") = some [ascii "a", ascii "b"] :=
  ⟨by decide,
    (fillers_are_ignored 0 (ascii "\\x, ") [(ascii "a", ascii " \\ "), (ascii "b", ascii "\\n]")]
      (by decide) (by decide)).1⟩

theorem parseRedisCommand_shape (spare : Nat) (line : Bytes) (cmd : RedisCommand)
    (h : parseRedisCommand spare line = some cmd) :
    cmd.Raw = line ∧
    ((cmd.IArgs = [] ∧ cmd.Name = [] ∧ cmd.Args = []) ∨ cmd.IArgs = cmd.Name :: cmd.Args) := by
  unfold parseRedisCommand at h
  cases hl : parseLoop spare line false [] [] with
  | none => rw [hl] at h; cases h
  | some parts =>
    rw [hl] at h
    cases parts with
    | nil =>
      simp only [Option.some.injEq] at h
      subst h
      exact ⟨rfl, Or.inl ⟨rfl, rfl, rfl⟩⟩
    | cons p0 ps =>
      simp only [Option.some.injEq] at h
      subst h
      exact ⟨rfl, Or.inr rfl⟩

theorem parseRedisCommand_of_tokens (spare : Nat) (line : Bytes) (t : Bytes) (ts : List Bytes)
    (h : decodedTokens spare line = some (t :: ts)) :
    parseRedisCommand spare line
      = some { Name := t, Args := ts, IArgs := t :: ts, Raw := line } := by
  rw [decodedTokens_eq_loop] at h
  exact parseRedisCommand_of_loop spare line t ts h

theorem parseRedisCommand_no_quote (spare : Nat) (line : Bytes) (h : 34 ∉ line) :
    parseRedisCommand spare line
      = some { Name := [], Args := [], IArgs := [], Raw := line } := by
  have hl : parseLoop spare line false [] [] = some [] := by
    have := parseLoop_filler spare line h [] [] []
    rw [List.append_nil] at this
    rw [this, parseLoop_nil]
  simp [parseRedisCommand, hl]

/-- C15: the returned `Name` is empty exactly when no token was decoded or the first
token is empty.  Without a decoded token (a line without double quote, for one) the
Command has empty `Name`, no `Args`, an empty `IArgs` and `Raw` equal to the line; when the
first token is empty, `Name` is empty although `Args` holds the other tokens, and the
per-line step discards the line. -/
theorem empty_name_cases (spare : Nat) (line : Bytes) :
    (∀ cmd, parseRedisCommand spare line = some cmd →
      (cmd.Name = [] ↔ (cmd.IArgs = [] ∨ cmd.IArgs.head? = some [])) ∧
      (cmd.IArgs = [] → cmd = { Name := [], Args := [], IArgs := [], Raw := line })) ∧
    (34 ∉ line →
      parseRedisCommand spare line
        = some { Name := [], Args := [], IArgs := [], Raw := line }) ∧
    (∀ ts, decodedTokens spare line = some ([] :: ts) →
      parseRedisCommand spare line
        = some { Name := [], Args := ts, IArgs := [] :: ts, Raw := line } ∧
      ∀ (pre : Bytes) (sep : Nat), 93 ∉ pre →
        lineStep spare (pre ++ 93 :: sep :: line) = LineOutcome.skipped) := by
  refine ⟨?_, parseRedisCommand_no_quote spare line, ?_⟩
  · intro cmd h
    obtain ⟨hraw, hshape⟩ := parseRedisCommand_shape spare line cmd h
    rcases hshape with ⟨hi, hn, ha⟩ | hi
    · refine ⟨⟨fun _ => Or.inl hi, fun _ => hn⟩, fun _ => ?_⟩
      cases cmd
      simp only [RedisCommand.mk.injEq]
      exact ⟨hn, ha, hi, hraw⟩
    · refine ⟨?_, fun h0 => ?_⟩
      · rw [hi]
        simp
      · rw [hi] at h0
        cases h0
  · intro ts h
    have hp := parseRedisCommand_of_tokens spare line [] ts h
    refine ⟨hp, fun pre sep hpre => ?_⟩
    rw [lineStep_bracket spare pre hpre, hp]
    simp

theorem empty_name_cases_witness :
    decodedTokens 0 (ascii "\"\" \"a\"") = some ([] :: [ascii "a"]) ∧
    parseRedisCommand 0 (ascii "\"\" \"a\"")
      = some { Name := [], Args := [ascii "a"], IArgs := [[], ascii "a"],
               Raw := ascii "\"\" \"a\"" } ∧
    lineStep 0 (ascii "1 [0 x] \"\" \"a\"") = LineOutcome.skipped :=
  ⟨by decide,
    ((empty_name_cases 0 (ascii "\"\" \"a\"")).2.2 [ascii "a"] (by decide)).1,
    ((empty_name_cases 0 (ascii "\"\" \"a\"")).2.2 [ascii "a"] (by decide)).2
      (ascii "1 [0 x") 32 (by decide)⟩

/-- C16 as stated fails: the line of a double quote, four backslashes and a double quote
does not decode to a single backslash byte. -/
theorem four_backslashes_not_one_byte :
    decodedTokens 0 [34, 92, 92, 92, 92, 34] ≠ some [[92]] := by decide

/-- C16 amended: each pair of backslashes decodes to one backslash byte.  Four backslashes
between double quotes decode to exactly one token of two backslash bytes; two backslashes
between double quotes decode to exactly one token that is a single backslash byte. -/
theorem backslash_pairs_decode (spare : Nat) :
    decodedTokens spare [34, 92, 92, 92, 92, 34] = some [[92, 92]] ∧
    decodedTokens spare [34, 92, 92, 34] = some [[92]] := by
  have h : (92, 92) ∈ simpleEscapes := by decide
  constructor
  · rw [decodedTokens_eq_loop, parseLoop_open, parseLoop_simple_escape spare 92 92 h,
      parseLoop_simple_escape spare 92 92 h, parseLoop_close, parseLoop_nil]
    rfl
  · rw [decodedTokens_eq_loop, parseLoop_open, parseLoop_simple_escape spare 92 92 h,
      parseLoop_close, parseLoop_nil]
    rfl

/-! ## Claims about the Sink -/

theorem callsOf_append (xs ys : List SinkEvent) : callsOf (xs ++ ys) = callsOf xs ++ callsOf ys := by
  induction xs with
  | nil => rfl
  | cons x xs ih =>
    cases x <;> simp [callsOf, ih]

theorem callsOf_sinkBody {σ : Type} (enableLog : Bool) (exec : σ → List Bytes → σ × Bool)
    (st : σ) (cmd : RedisCommand) :
    callsOf (sinkBody enableLog exec st cmd).2 = [cmd.IArgs] := by
  unfold sinkBody
  simp only [callsOf_append]
  have h1 : callsOf (if enableLog then [SinkEvent.logRaw cmd.Raw] else []) = [] := by
    split_ifs <;> rfl
  have h2 : callsOf (if (exec st cmd.IArgs).2 then [SinkEvent.logError cmd.Raw] else [])
      = [] := by
    split_ifs <;> rfl
  rw [h1, h2]
  rfl

theorem callsOf_sinkLoop {σ : Type} (enableLog : Bool) (exec : σ → List Bytes → σ × Bool)
    (st : σ) (cmds : List RedisCommand) :
    callsOf (sinkLoop enableLog exec st cmds) = cmds.map (fun cmd => cmd.IArgs) := by
  induction cmds generalizing st with
  | nil => rfl
  | cons cmd rest ih =>
    rw [sinkLoop, callsOf_append, callsOf_sinkBody, ih]
    rfl

/-- C12: for every sequence of dequeued Commands and every executor (with any state of
its own and any results), the Sink loop makes exactly one call per Command, in order,
with that Command's `IArgs`; the calls do not depend on the results, so a failure
neither stops the loop, nor repeats a call, nor changes a later call. -/
theorem sink_calls_once_each_in_order {σ τ : Type} (enableLog : Bool)
    (exec : σ → List Bytes → σ × Bool) (st : σ) (cmds : List RedisCommand) :
    callsOf (sinkLoop enableLog exec st cmds) = cmds.map (fun cmd => cmd.IArgs) ∧
    (callsOf (sinkLoop enableLog exec st cmds)).length = cmds.length ∧
    ∀ (other : τ → List Bytes → τ × Bool) (st2 : τ),
      callsOf (sinkLoop enableLog other st2 cmds) = callsOf (sinkLoop enableLog exec st cmds) := by
  refine ⟨callsOf_sinkLoop enableLog exec st cmds, ?_, fun other st2 => ?_⟩
  · rw [callsOf_sinkLoop, List.length_map]
  · rw [callsOf_sinkLoop, callsOf_sinkLoop]

/-- C18: when at least one token is decoded, `IArgs` is `Name` followed by `Args`: its
length is `1 + len(Args)`, its first element is `Name`, element `i+1` is `Args[i]`; the
Sink hands exactly this list to the executor. -/
theorem iargs_is_name_then_args {σ : Type} (spare : Nat) (line : Bytes) (t : Bytes)
    (ts : List Bytes) (h : decodedTokens spare line = some (t :: ts)) :
    ∃ cmd, parseRedisCommand spare line = some cmd ∧
      cmd.Name = t ∧ cmd.Args = ts ∧
      cmd.IArgs = cmd.Name :: cmd.Args ∧
      cmd.IArgs.length = 1 + cmd.Args.length ∧
      cmd.IArgs.head? = some cmd.Name ∧
      (∀ i, cmd.IArgs[i + 1]? = cmd.Args[i]?) ∧
      ∀ (enableLog : Bool) (exec : σ → List Bytes → σ × Bool) (st : σ),
        callsOf (sinkBody enableLog exec st cmd).2 = [cmd.Name :: cmd.Args] := by
  refine ⟨_, parseRedisCommand_of_tokens spare line t ts h, rfl, rfl, rfl, ?_, rfl, ?_, ?_⟩
  · simp; omega
  · intro i; simp
  · intro enableLog exec st
    rw [callsOf_sinkBody]

theorem iargs_is_name_then_args_witness :
    decodedTokens 0 (ascii "\"SET\" \"k\" \"v\"") = some (ascii "SET" :: [ascii "k", ascii "v"]) ∧
    ∃ cmd, parseRedisCommand 0 (ascii "\"SET\" \"k\" \"v\"") = some cmd ∧
      cmd.Name = ascii "SET" ∧ cmd.Args = [ascii "k", ascii "v"] ∧
      cmd.IArgs = cmd.Name :: cmd.Args ∧
      cmd.IArgs.length = 1 + cmd.Args.length ∧
      cmd.IArgs.head? = some cmd.Name ∧
      (∀ i, cmd.IArgs[i + 1]? = cmd.Args[i]?) ∧
      ∀ (enableLog : Bool) (exec : Unit → List Bytes → Unit × Bool) (st : Unit),
        callsOf (sinkBody enableLog exec st cmd).2 = [cmd.Name :: cmd.Args] :=
  ⟨by decide,
    iargs_is_name_then_args 0 (ascii "\"SET\" \"k\" \"v\"") (ascii "SET") [ascii "k", ascii "v"]
      (by decide)⟩

/-! ## The binary round trip -/

theorem hexDigitChar_hex (d : Nat) (hd : d < 16) :
    IsHexDigit (hexDigitChar d) ∧ hexVal (hexDigitChar d) = d := by
  unfold IsHexDigit hexVal hexDigitChar
  split_ifs <;> omega

/-- The escaping of one byte is decoded back to that byte. -/
theorem parseLoop_encByte (spare : Nat) (b : Nat) (hb : b < 256) (bs part : Bytes)
    (parts : List Bytes) :
    parseLoop spare (encByte b ++ bs) true part parts
      = parseLoop spare bs true (part ++ [b]) parts := by
  unfold encByte
  split_ifs with h1 h2 h3 h4 h5 h6 h7 h8
  · subst h1; exact parseLoop_simple_escape spare 34 34 (by decide) bs part parts
  · subst h2; exact parseLoop_simple_escape spare 92 92 (by decide) bs part parts
  · subst h3; exact parseLoop_simple_escape spare 110 10 (by decide) bs part parts
  · subst h4; exact parseLoop_simple_escape spare 114 13 (by decide) bs part parts
  · subst h5; exact parseLoop_simple_escape spare 116 9 (by decide) bs part parts
  · subst h6; exact parseLoop_simple_escape spare 97 7 (by decide) bs part parts
  · subst h7; exact parseLoop_simple_escape spare 98 8 (by decide) bs part parts
  · exact parseLoop_plain_byte spare b bs part parts h1 h2
  · obtain ⟨x1, v1⟩ := hexDigitChar_hex (b / 16) (by omega)
    obtain ⟨x2, v2⟩ := hexDigitChar_hex (b % 16) (by omega)
    simp only [List.cons_append, List.nil_append]
    rw [parseLoop_hex, ParseInt16_hex _ _ x1 x2, v1, v2]
    simp only []
    rw [toByte_small _ (by omega)]
    have : 16 * (b / 16) + b % 16 = b := Nat.div_add_mod b 16
    rw [this]

theorem parseLoop_enc (spare : Nat) (t : Bytes) (ht : ∀ b ∈ t, b < 256) (bs part : Bytes)
    (parts : List Bytes) :
    parseLoop spare (enc t ++ bs) true part parts
      = parseLoop spare bs true (part ++ t) parts := by
  induction t generalizing part with
  | nil => simp [enc]
  | cons b t ih =>
    have hb := ht b (List.mem_cons_self b t)
    have ht2 : ∀ c ∈ t, c < 256 := fun c hc => ht c (List.mem_cons_of_mem b hc)
    rw [enc, List.append_assoc, parseLoop_encByte spare b hb, ih ht2]
    simp

theorem parseLoop_quoted_enc (spare : Nat) (t : Bytes) (ht : ∀ b ∈ t, b < 256)
    (bs part : Bytes) (parts : List Bytes) :
    parseLoop spare (quoted (enc t) ++ bs) false part parts
      = parseLoop spare bs false [] (parts ++ [t]) := by
  unfold quoted
  rw [List.cons_append, parseLoop_open, List.append_assoc, parseLoop_enc spare t ht]
  rw [List.singleton_append, parseLoop_close, List.nil_append]
  exact parseLoop_outside_part spare bs t [] _

theorem parseLoop_monitorLine_enc (spare : Nat) (ts : List Bytes)
    (hts : ∀ t ∈ ts, ∀ b ∈ t, b < 256) (part : Bytes) (parts : List Bytes) :
    parseLoop spare (monitorLine (ts.map enc)) false part parts = some (parts ++ ts) := by
  induction ts generalizing part parts with
  | nil => simp [monitorLine_nil, parseLoop_nil]
  | cons t ts ih =>
    have ht := hts t (List.mem_cons_self t ts)
    have hrest : ∀ v ∈ ts, ∀ b ∈ v, b < 256 := fun v hv => hts v (List.mem_cons_of_mem t hv)
    cases ts with
    | nil =>
      rw [List.map_cons, List.map_nil, monitorLine_singleton]
      have := parseLoop_quoted_enc spare t ht [] part parts
      rw [List.append_nil] at this
      rw [this, parseLoop_nil]
    | cons t2 ts =>
      rw [List.map_cons, List.map_cons, monitorLine_cons_cons,
        parseLoop_quoted_enc spare t ht, parseLoop_outside spare 32 _ _ _ (by decide)]
      rw [← List.map_cons, ih hrest]
      simp

/-- C17: arbitrary binary arguments round-trip through the monitor escaping.  For every
non-empty list of byte strings (any bytes 0..255, any lengths), the line of their quoted
escapings joined by single spaces parses to `Name` = the first string and `Args` = the
others, in order. -/
theorem binary_roundtrip (spare : Nat) (t0 : Bytes) (ts : List Bytes)
    (h : ∀ t ∈ t0 :: ts, ∀ b ∈ t, b < 256) :
    parseRedisCommand spare (monitorLine ((t0 :: ts).map enc))
      = some { Name := t0, Args := ts, IArgs := t0 :: ts,
               Raw := monitorLine ((t0 :: ts).map enc) } := by
  apply parseRedisCommand_of_loop
  rw [parseLoop_monitorLine_enc spare (t0 :: ts) h]
  simp

theorem binary_roundtrip_witness :
    (∀ t ∈ [0, 255, 34, 92, 10, 65] :: [[], [13, 9, 7, 8, 127, 31]], ∀ b ∈ t, b < 256) ∧
    parseRedisCommand 0 (ascii "\"\\x00\\xff\\\"\\\\\\nA\" \"\" \"\\r\\t\\a\\b\\x7f\\x1f\"")
      = some { Name := [0, 255, 34, 92, 10, 65], Args := [[], [13, 9, 7, 8, 127, 31]],
               IArgs := [[0, 255, 34, 92, 10, 65], [], [13, 9, 7, 8, 127, 31]],
               Raw := ascii "\"\\x00\\xff\\\"\\\\\\nA\" \"\" \"\\r\\t\\a\\b\\x7f\\x1f\"" } :=
  ⟨by decide,
    binary_roundtrip 0 [0, 255, 34, 92, 10, 65] [[], [13, 9, 7, 8, 127, 31]] (by decide)⟩

/-! ## Unterminated tokens -/

theorem parseLoopEnd_nil (spare : Nat) (q : Bool) (part : Bytes) (parts : List Bytes) :
    parseLoopEnd spare [] q part parts = some (q, parts) := by
  cases q <;> rfl

theorem parseLoopEnd_false_cons (spare : Nat) (c : Nat) (bs part : Bytes)
    (parts : List Bytes) :
    parseLoopEnd spare (c :: bs) false part parts =
      if c = 34 then parseLoopEnd spare bs true [] parts
      else parseLoopEnd spare bs false part parts := rfl

theorem parseLoopEnd_true_cons (spare : Nat) (c : Nat) (bs part : Bytes)
    (parts : List Bytes) :
    parseLoopEnd spare (c :: bs) true part parts =
    if c = 34 then parseLoopEnd spare bs false part (parts ++ [part])
    else if c = 92 then
      match bs with
      | [] => none
      | e :: bs1 =>
        if e = 120 then
          if bs1.length + spare < 2 then none
          else
            let hexNum := (bs1 ++ List.replicate spare 0).take 2
            let part1 :=
              match ParseInt16 hexNum with
              | some ord => part ++ [toByte ord]
              | none => part
            match bs1 with
            | _ :: _ :: bs2 => parseLoopEnd spare bs2 true part1 parts
            | _ => some (true, parts)
        else if e = 34 ∨ e = 92 then parseLoopEnd spare bs1 true (part ++ [e]) parts
        else if e = 114 then parseLoopEnd spare bs1 true (part ++ [13]) parts
        else if e = 97 then parseLoopEnd spare bs1 true (part ++ [7]) parts
        else if e = 98 then parseLoopEnd spare bs1 true (part ++ [8]) parts
        else if e = 110 then parseLoopEnd spare bs1 true (part ++ [10]) parts
        else if e = 116 then parseLoopEnd spare bs1 true (part ++ [9]) parts
        else parseLoopEnd spare bs1 true part parts
    else parseLoopEnd spare bs true (part ++ [c]) parts := by
  cases bs with
  | nil => rfl
  | cons e bs1 =>
    cases bs1 with
    | nil => rfl
    | cons a bs2 =>
      cases bs2 with
      | nil => rfl
      | cons b bs3 => rfl

/-- The loop with the final state returns the same `parts` as `parseLoop`. -/
theorem parseLoopEnd_parts (spare : Nat) :
    ∀ (n : Nat) (bs : Bytes), bs.length ≤ n → ∀ (q : Bool) (part : Bytes) (parts : List Bytes),
      (parseLoopEnd spare bs q part parts).map Prod.snd = parseLoop spare bs q part parts := by
  intro n
  induction n with
  | zero =>
    intro bs hbs q part parts
    have : bs = [] := List.length_eq_zero.mp (Nat.le_zero.mp hbs)
    subst this
    simp [parseLoop_nil, parseLoopEnd_nil]
  | succ n ih =>
    intro bs hbs q part parts
    cases bs with
    | nil => simp [parseLoop_nil, parseLoopEnd_nil]
    | cons c bs =>
      have hl : bs.length ≤ n := by simpa using hbs
      cases q with
      | false =>
        rw [parseLoop_false_cons, parseLoopEnd_false_cons]
        split_ifs
        · exact ih bs hl _ _ _
        · exact ih bs hl _ _ _
      | true =>
        rw [parseLoop_true_cons, parseLoopEnd_true_cons]
        by_cases h34 : c = 34
        · simp only [h34, if_true]
          exact ih bs hl _ _ _
        · simp only [h34, if_false]
          by_cases h92 : c = 92
          · simp only [h92, if_true]
            cases bs with
            | nil => simp
            | cons e bs1 =>
              have hl1 : bs1.length ≤ n := by
                simp only [List.length_cons] at hl; omega
              simp only []
              by_cases hx : e = 120
              · simp only [hx, if_true]
                by_cases hsp : bs1.length + spare < 2
                · simp [hsp]
                · simp only [hsp, if_false]
                  match bs1, hl1 with
                  | [], _ => simp
                  | [_], _ => simp
                  | _ :: _ :: bs2, hl2 =>
                    have hl3 : bs2.length ≤ n := by
                      simp only [List.length_cons] at hl2; omega
                    simp only []
                    exact ih bs2 hl3 _ _ _
              · simp only [hx, if_false]
                split_ifs <;> exact ih bs1 hl1 _ _ _
          · simp only [h92, if_false]
            exact ih bs hl _ _ _

theorem parseLoopEnd_hex (spare : Nat) (a b : Nat) (bs part : Bytes) (parts : List Bytes) :
    parseLoopEnd spare (92 :: 120 :: a :: b :: bs) true part parts
      = parseLoopEnd spare bs true
          (match ParseInt16 [a, b] with
            | some ord => part ++ [toByte ord]
            | none => part) parts := by
  rw [parseLoopEnd_true_cons]
  have hlen : ¬ (bs.length + 1 + 1 + spare < 2) := by omega
  simp [hlen]

/-- A line cut off inside `\x` never ends outside quotes. -/
theorem parseLoopEnd_short_hex (spare : Nat) (bs1 part : Bytes) (parts ps : List Bytes)
    (hlen : bs1.length < 2) :
    parseLoopEnd spare (92 :: 120 :: bs1) true part parts ≠ some (false, ps) := by
  rw [parseLoopEnd_true_cons]
  match bs1, hlen with
  | [], _ =>
    intro h
    simp at h
  | [_], _ =>
    intro h
    simp at h
  | _ :: _ :: _, h2 =>
    simp only [List.length_cons] at h2
    omega

/-- When the loop on `L` ends outside quotes with `ps`, the loop on `L` followed by more
text continues on that text from outside quotes with `ps`, whatever the capacities. -/
theorem parseLoop_append_of_end_outside (spare spare2 : Nat) :
    ∀ (n : Nat) (L : Bytes), L.length ≤ n →
      ∀ (q : Bool) (part : Bytes) (parts ps : List Bytes),
        parseLoopEnd spare L q part parts = some (false, ps) →
        ∀ rest : Bytes,
          parseLoop spare2 (L ++ rest) q part parts = parseLoop spare2 rest false [] ps := by
  intro n
  induction n with
  | zero =>
    intro L hL q part parts ps h rest
    have : L = [] := List.length_eq_zero.mp (Nat.le_zero.mp hL)
    subst this
    rw [parseLoopEnd_nil] at h
    simp only [Option.some.injEq, Prod.mk.injEq] at h
    obtain ⟨rfl, rfl⟩ := h
    exact parseLoop_outside_part spare2 rest part [] parts
  | succ n ih =>
    intro L hL q part parts ps h rest
    cases L with
    | nil =>
      rw [parseLoopEnd_nil] at h
      simp only [Option.some.injEq, Prod.mk.injEq] at h
      obtain ⟨rfl, rfl⟩ := h
      exact parseLoop_outside_part spare2 rest part [] parts
    | cons c bs =>
      have hl : bs.length ≤ n := by simpa using hL
      rw [List.cons_append]
      cases q with
      | false =>
        rw [parseLoopEnd_false_cons] at h
        rw [parseLoop_false_cons]
        by_cases h34 : c = 34
        · simp only [h34, if_true] at h ⊢
          exact ih bs hl _ _ _ _ h rest
        · simp only [h34, if_false] at h ⊢
          exact ih bs hl _ _ _ _ h rest
      | true =>
        by_cases h34 : c = 34
        · subst h34
          rw [parseLoopEnd_true_cons] at h
          simp only [if_true] at h
          rw [parseLoop_close]
          exact ih bs hl _ _ _ _ h rest
        · by_cases h92 : c = 92
          · subst h92
            cases bs with
            | nil =>
              rw [parseLoopEnd_true_cons] at h
              simp at h
            | cons e bs1 =>
              have hl1 : bs1.length ≤ n := by
                simp only [List.length_cons] at hl; omega
              by_cases hx : e = 120
              · subst hx
                match bs1, hl1, h with
                | [], _, h0 => exact absurd h0 (parseLoopEnd_short_hex spare [] _ _ _ (by simp))
                | [_], _, h0 =>
                  exact absurd h0 (parseLoopEnd_short_hex spare [_] _ _ _ (by simp))
                | a :: b :: bs2, hl2, h0 =>
                  have hl3 : bs2.length ≤ n := by
                    simp only [List.length_cons] at hl2; omega
                  rw [parseLoopEnd_hex] at h0
                  simp only [List.cons_append]
                  rw [parseLoop_hex]
                  exact ih bs2 hl3 _ _ _ _ h0 rest
              · rw [parseLoopEnd_true_cons] at h
                simp only [List.cons_append]
                rw [parseLoop_true_cons]
                simp only [h34, hx, if_true, if_false] at h ⊢
                split_ifs at h ⊢ <;> exact ih bs1 hl1 _ _ _ _ h rest
          · rw [parseLoopEnd_true_cons] at h
            rw [parseLoop_true_cons]
            simp only [h34, h92, if_false] at h ⊢
            exact ih bs hl _ _ _ _ h rest

/-- C19: a token is committed only by its closing quote.  When the parser ends outside
quotes on `L`, the line `L` followed by a double quote and text without double quote or
backslash decodes exactly the tokens of `L` alone (which do exist), whatever the
capacities of the two byte slices: the unterminated text is dropped. -/
theorem unterminated_token_dropped (spare spare2 : Nat) (L b : Bytes)
    (hL : (parseLoopEnd spare L false [] []).map Prod.fst = some false) (hb : Plain b) :
    decodedTokens spare2 (L ++ 34 :: b) = decodedTokens spare L ∧
    ∃ ts, decodedTokens spare L = some ts := by
  cases he : parseLoopEnd spare L false [] [] with
  | none => rw [he] at hL; cases hL
  | some r =>
    obtain ⟨q, ps⟩ := r
    rw [he] at hL
    simp only [Option.map_some', Option.some.injEq] at hL
    subst hL
    have h1 : parseLoop spare L false [] [] = some ps := by
      rw [← parseLoopEnd_parts spare L.length L (le_refl _), he]
      rfl
    have h2 := parseLoop_append_of_end_outside spare spare2 L.length L (le_refl _)
      false [] [] ps he (34 :: b)
    have h3 : parseLoop spare2 (34 :: b) false [] ps = some ps := by
      have := parseLoop_plain spare2 b hb [] [] ps
      rw [List.append_nil] at this
      rw [parseLoop_open, this, parseLoop_nil]
    rw [decodedTokens_eq_loop, decodedTokens_eq_loop, h2, h3, h1]
    exact ⟨rfl, ps, rfl⟩

theorem unterminated_token_dropped_witness :
    ((parseLoopEnd 0 (ascii "\"GET\" \"k\" ") false [] []).map Prod.fst = some false ∧
      Plain (ascii "tail x")) ∧
    decodedTokens 3 (ascii "\"GET\" \"k\" \"tail x") = decodedTokens 0 (ascii "\"GET\" \"k\" ") ∧
    ∃ ts, decodedTokens 0 (ascii "\"GET\" \"k\" ") = some ts :=
  ⟨by decide,
    unterminated_token_dropped 0 3 (ascii "\"GET\" \"k\" ") (ascii "tail x")
      (by decide) (by decide)⟩

/-! ## Claims about the process -/

/-- No move closes the channel or ends the `range` loop of `main`. -/
theorem Pipeline.step_never_closes (spareOf : Bytes → Nat) (s s2 : Pipeline) (a : Actor)
    (h : Pipeline.step spareOf s a = some s2) (hc : s.closed = false)
    (hd : s.sinkDone = false) : s2.closed = false ∧ s2.sinkDone = false := by
  cases a with
  | reader =>
    simp only [Pipeline.step] at h
    by_cases hcr : s.crashed = true ∨ s.readerDone = true
    · rw [if_pos hcr] at h; cases h
    · rw [if_neg hcr] at h
      cases hin : s.input with
      | nil =>
        rw [hin] at h
        simp only [Option.some.injEq] at h
        subst h
        exact ⟨hc, hd⟩
      | cons line rest =>
        rw [hin] at h
        simp only [] at h
        cases hls : lineStep (spareOf line) line with
        | skipped =>
          rw [hls] at h
          simp only [Option.some.injEq] at h
          subst h
          exact ⟨hc, hd⟩
        | crashed =>
          rw [hls] at h
          simp only [Option.some.injEq] at h
          subst h
          exact ⟨hc, hd⟩
        | emitted cmd =>
          rw [hls] at h
          simp only [] at h
          by_cases hq : s.queue.length < chanBuffer
          · rw [if_pos hq] at h
            simp only [Option.some.injEq] at h
            subst h
            exact ⟨hc, hd⟩
          · rw [if_neg hq] at h; cases h
  | sink =>
    simp only [Pipeline.step] at h
    by_cases hcr : s.crashed = true ∨ s.sinkDone = true
    · rw [if_pos hcr] at h; cases h
    · rw [if_neg hcr] at h
      cases hq : s.queue with
      | nil =>
        rw [hq] at h
        simp only [hc] at h
        cases h
      | cons cmd q =>
        rw [hq] at h
        simp only [Option.some.injEq] at h
        subst h
        exact ⟨hc, hd⟩

theorem Pipeline.run_never_closes (spareOf : Bytes → Nat) (sched : List Actor) (s : Pipeline)
    (hc : s.closed = false) (hd : s.sinkDone = false) :
    (Pipeline.run spareOf sched s).closed = false ∧
    (Pipeline.run spareOf sched s).sinkDone = false := by
  induction sched generalizing s with
  | nil => exact ⟨hc, hd⟩
  | cons a rest ih =>
    rw [Pipeline.run]
    cases hs : Pipeline.step spareOf s a with
    | none => exact ih s hc hd
    | some s2 =>
      obtain ⟨hc2, hd2⟩ := Pipeline.step_never_closes spareOf s s2 a hs hc hd
      exact ih s2 hc2 hd2

/-- C13: the channel is never closed.  For every finite input and every schedule, the
channel stays open and the `range` loop of `main` has not ended; on the empty input,
once the reader has returned, neither goroutine can move; and whenever the channel is
empty the Sink cannot move: `main` stays blocked on the receive and the process does not
terminate normally. -/
theorem channel_never_closed (spareOf : Bytes → Nat) (lines : List Bytes)
    (sched : List Actor) :
    (Pipeline.run spareOf sched (Pipeline.initial lines)).closed = false ∧
    (Pipeline.run spareOf sched (Pipeline.initial lines)).sinkDone = false ∧
    Pipeline.run spareOf [Actor.reader] (Pipeline.initial [])
      = { input := [], readerDone := true, queue := [], closed := false, handed := [],
          sinkDone := false, crashed := false } ∧
    Pipeline.step spareOf (Pipeline.run spareOf [Actor.reader] (Pipeline.initial []))
      Actor.sink = none ∧
    Pipeline.step spareOf (Pipeline.run spareOf [Actor.reader] (Pipeline.initial []))
      Actor.reader = none ∧
    ((Pipeline.run spareOf sched (Pipeline.initial lines)).queue = [] →
      Pipeline.step spareOf (Pipeline.run spareOf sched (Pipeline.initial lines))
        Actor.sink = none) := by
  obtain ⟨h1, h2⟩ := Pipeline.run_never_closes spareOf sched (Pipeline.initial lines) rfl rfl
  refine ⟨h1, h2, rfl, rfl, rfl, fun hq => ?_⟩
  simp [Pipeline.step, hq, h1]

theorem Pipeline.initial_inv (spareOf : Bytes → Nat) (lines : List Bytes)
    (hn : ∀ line ∈ lines, lineStep (spareOf line) line ≠ LineOutcome.crashed) :
    Pipeline.Inv spareOf lines (Pipeline.initial lines) := by
  refine ⟨rfl, ?_, hn, ?_, ?_⟩
  · simp [Pipeline.initial]
  · simp [Pipeline.initial]
  · intro h; simp [Pipeline.initial] at h

theorem Pipeline.step_inv (spareOf : Bytes → Nat) (lines : List Bytes) (s s2 : Pipeline)
    (a : Actor) (h : Pipeline.step spareOf s a = some s2) (hi : Pipeline.Inv spareOf lines s) :
    Pipeline.Inv spareOf lines s2 := by
  obtain ⟨input, readerDone, queue, closed, handed, sinkDone, crashed⟩ := s
  obtain ⟨hcr, hsum, hno, hcap, hdone⟩ := hi
  dsimp only at hcr hsum hno hcap hdone
  cases a with
  | reader =>
    simp only [Pipeline.step] at h
    by_cases hc : crashed = true ∨ readerDone = true
    · rw [if_pos hc] at h; cases h
    · rw [if_neg hc] at h
      have hnd : ¬ (readerDone = true) := fun hd => hc (Or.inr hd)
      cases input with
      | nil =>
        simp only [Option.some.injEq] at h
        subst h
        exact ⟨hcr, hsum, hno, hcap, fun _ => rfl⟩
      | cons line rest =>
        simp only [] at h
        have hline := hno line (List.mem_cons_self line rest)
        have hrest : ∀ l ∈ rest, lineStep (spareOf l) l ≠ LineOutcome.crashed :=
          fun l hl => hno l (List.mem_cons_of_mem line hl)
        cases hls : lineStep (spareOf line) line with
        | skipped =>
          rw [hls] at h
          simp only [Option.some.injEq] at h
          subst h
          refine ⟨hcr, ?_, hrest, hcap, fun hd => absurd hd hnd⟩
          simpa [emittedOf, hls] using hsum
        | crashed => exact absurd hls hline
        | emitted cmd =>
          rw [hls] at h
          simp only [] at h
          by_cases hq : queue.length < chanBuffer
          · rw [if_pos hq] at h
            simp only [Option.some.injEq] at h
            subst h
            refine ⟨hcr, ?_, hrest, ?_, fun hd => absurd hd hnd⟩
            · simpa [emittedOf, hls] using hsum
            · simp only [List.length_append, List.length_singleton]
              omega
          · rw [if_neg hq] at h; cases h
  | sink =>
    simp only [Pipeline.step] at h
    by_cases hc : crashed = true ∨ sinkDone = true
    · rw [if_pos hc] at h; cases h
    · rw [if_neg hc] at h
      cases queue with
      | nil =>
        simp only [] at h
        split_ifs at h
        simp only [Option.some.injEq] at h
        subst h
        exact ⟨hcr, hsum, hno, hcap, hdone⟩
      | cons cmd q =>
        simp only [Option.some.injEq] at h
        subst h
        refine ⟨hcr, ?_, hno, ?_, hdone⟩
        · simpa using hsum
        · simp only [List.length_cons] at hcap
          dsimp only
          omega

theorem Pipeline.run_inv (spareOf : Bytes → Nat) (lines : List Bytes) (sched : List Actor)
    (s : Pipeline) (hi : Pipeline.Inv spareOf lines s) :
    Pipeline.Inv spareOf lines (Pipeline.run spareOf sched s) := by
  induction sched generalizing s with
  | nil => exact hi
  | cons a rest ih =>
    rw [Pipeline.run]
    cases hs : Pipeline.step spareOf s a with
    | none => exact ih s hi
    | some s2 => exact ih s2 (Pipeline.step_inv spareOf lines s s2 a hs hi)

/-- Under the alternating schedule every line is read and every Command handed over. -/
theorem Pipeline.run_alternating (spareOf : Bytes → Nat) (input : List Bytes)
    (hn : ∀ line ∈ input, lineStep (spareOf line) line ≠ LineOutcome.crashed)
    (handed : List RedisCommand) :
    Pipeline.run spareOf (alternating input.length)
        { input := input, readerDone := false, queue := [], closed := false,
          handed := handed, sinkDone := false, crashed := false }
      = { input := [], readerDone := true, queue := [], closed := false,
          handed := handed ++ emittedOf spareOf input, sinkDone := false, crashed := false } := by
  induction input generalizing handed with
  | nil => simp [alternating, Pipeline.run, Pipeline.step, emittedOf]
  | cons line rest ih =>
    have hline := hn line (List.mem_cons_self line rest)
    have hrest : ∀ l ∈ rest, lineStep (spareOf l) l ≠ LineOutcome.crashed :=
      fun l hl => hn l (List.mem_cons_of_mem line hl)
    cases hls : lineStep (spareOf line) line with
    | crashed => exact absurd hls hline
    | skipped =>
      simp only [List.length_cons, alternating, Pipeline.run, Pipeline.step, hls]
      simp only [Bool.false_eq_true, or_self, if_false]
      rw [ih hrest handed]
      simp [emittedOf, hls]
    | emitted cmd =>
      simp only [List.length_cons, alternating, Pipeline.run, Pipeline.step, hls]
      simp only [Bool.false_eq_true, or_self, if_false, List.length_nil, chanBuffer,
        Nat.zero_lt_succ, if_true, List.nil_append]
      rw [ih hrest (handed ++ [cmd])]
      simp [emittedOf, hls]

/-- When neither goroutine can move, everything has been read and handed over. -/
theorem Pipeline.quiescent_handed (spareOf : Bytes → Nat) (lines : List Bytes) (s : Pipeline)
    (hi : Pipeline.Inv spareOf lines s) (hc : s.closed = false) (hd : s.sinkDone = false)
    (hr : Pipeline.step spareOf s Actor.reader = none)
    (hs : Pipeline.step spareOf s Actor.sink = none) :
    s.handed = emittedOf spareOf lines := by
  obtain ⟨input, readerDone, queue, closed, handed, sinkDone, crashed⟩ := s
  obtain ⟨hcr, hsum, hno, hcap, hdone⟩ := hi
  dsimp only at hcr hsum hno hcap hdone hc hd ⊢
  subst hcr hc hd
  have hq : queue = [] := by
    cases queue with
    | nil => rfl
    | cons cmd q => simp [Pipeline.step] at hs
  subst hq
  have hdn : readerDone = true := by
    cases readerDone with
    | true => rfl
    | false =>
      exfalso
      cases input with
      | nil => simp [Pipeline.step] at hr
      | cons line rest =>
        have hline := hno line (List.mem_cons_self line rest)
        cases hls : lineStep (spareOf line) line with
        | crashed => exact hline hls
        | skipped => simp [Pipeline.step, hls] at hr
        | emitted cmd => simp [Pipeline.step, hls, chanBuffer] at hr
  have hin := hdone hdn
  subst hin
  simpa [emittedOf] using hsum

/-- Without a panicking line the channel forwards every Command, in order: what has been
handed over is always an initial part of the Commands of the lines, it is all of them
when neither goroutine can move any more, and the alternating schedule gets there (also
for more than `chanBuffer` Commands). -/
theorem Pipeline.forwards_in_order (spareOf : Bytes → Nat) (lines : List Bytes)
    (hn : ∀ line ∈ lines, lineStep (spareOf line) line ≠ LineOutcome.crashed) :
    (∀ sched : List Actor,
      (Pipeline.run spareOf sched (Pipeline.initial lines)).handed
        <+: emittedOf spareOf lines) ∧
    (∀ sched : List Actor,
      Pipeline.step spareOf (Pipeline.run spareOf sched (Pipeline.initial lines))
        Actor.reader = none →
      Pipeline.step spareOf (Pipeline.run spareOf sched (Pipeline.initial lines))
        Actor.sink = none →
      (Pipeline.run spareOf sched (Pipeline.initial lines)).handed = emittedOf spareOf lines) ∧
    (Pipeline.run spareOf (alternating lines.length) (Pipeline.initial lines)).handed
      = emittedOf spareOf lines := by
  refine ⟨fun sched => ?_, fun sched hr hs => ?_, ?_⟩
  · have hi := Pipeline.run_inv spareOf lines sched _ (Pipeline.initial_inv spareOf lines hn)
    obtain ⟨_, hsum, _, _, _⟩ := hi
    rw [List.append_assoc] at hsum
    exact ⟨_, hsum⟩
  · have hi := Pipeline.run_inv spareOf lines sched _ (Pipeline.initial_inv spareOf lines hn)
    obtain ⟨hc, hd⟩ := Pipeline.run_never_closes spareOf sched (Pipeline.initial lines) rfl rfl
    exact Pipeline.quiescent_handed spareOf lines _ hi hc hd hr hs
  · have := Pipeline.run_alternating spareOf lines hn []
    unfold Pipeline.initial
    rw [this]
    rfl

/-- What holds of the process on an input whose first line emits `c1` and whose second
line makes the parser panic: either nothing has been read, or the first line has been read
and `c1` is in the channel or handed over; nothing else is ever handed over. -/
theorem Pipeline.step_crash_second (spareOf : Bytes → Nat) (l1 l2 : Bytes) (rest : List Bytes)
    (c1 : RedisCommand) (h1 : lineStep (spareOf l1) l1 = LineOutcome.emitted c1)
    (h2 : lineStep (spareOf l2) l2 = LineOutcome.crashed) (s s2 : Pipeline) (a : Actor)
    (h : Pipeline.step spareOf s a = some s2)
    (hi : (s.input = l1 :: l2 :: rest ∧ s.queue = [] ∧ s.handed = []) ∨
          (s.input = l2 :: rest ∧ s.handed ++ s.queue = [c1])) :
    (s2.input = l1 :: l2 :: rest ∧ s2.queue = [] ∧ s2.handed = []) ∨
    (s2.input = l2 :: rest ∧ s2.handed ++ s2.queue = [c1]) := by
  obtain ⟨input, readerDone, queue, closed, handed, sinkDone, crashed⟩ := s
  dsimp only at hi
  cases a with
  | reader =>
    simp only [Pipeline.step] at h
    by_cases hc : crashed = true ∨ readerDone = true
    · rw [if_pos hc] at h; cases h
    · rw [if_neg hc] at h
      rcases hi with ⟨hin, hq, hh⟩ | ⟨hin, hsum⟩
      · subst hin hq hh
        simp only [h1, List.length_nil, chanBuffer, Nat.zero_lt_succ, if_true,
          Option.some.injEq] at h
        subst h
        exact Or.inr ⟨rfl, rfl⟩
      · subst hin
        simp only [h2, Option.some.injEq] at h
        subst h
        exact Or.inr ⟨rfl, hsum⟩
  | sink =>
    simp only [Pipeline.step] at h
    by_cases hc : crashed = true ∨ sinkDone = true
    · rw [if_pos hc] at h; cases h
    · rw [if_neg hc] at h
      cases queue with
      | nil =>
        simp only [] at h
        split_ifs at h
        simp only [Option.some.injEq] at h
        subst h
        exact hi
      | cons cmd q =>
        simp only [Option.some.injEq] at h
        subst h
        rcases hi with ⟨_, hq, _⟩ | ⟨hin, hsum⟩
        · cases hq
        · exact Or.inr ⟨hin, by simpa using hsum⟩

theorem Pipeline.run_crash_second (spareOf : Bytes → Nat) (l1 l2 : Bytes) (rest : List Bytes)
    (c1 : RedisCommand) (h1 : lineStep (spareOf l1) l1 = LineOutcome.emitted c1)
    (h2 : lineStep (spareOf l2) l2 = LineOutcome.crashed) (sched : List Actor) (s : Pipeline)
    (hi : (s.input = l1 :: l2 :: rest ∧ s.queue = [] ∧ s.handed = []) ∨
          (s.input = l2 :: rest ∧ s.handed ++ s.queue = [c1])) :
    (Pipeline.run spareOf sched s).handed = [] ∨
    (Pipeline.run spareOf sched s).handed = [c1] := by
  induction sched generalizing s with
  | nil =>
    rw [Pipeline.run]
    rcases hi with ⟨_, _, hh⟩ | ⟨_, hsum⟩
    · exact Or.inl hh
    · cases hh : s.handed with
      | nil => exact Or.inl rfl
      | cons x xs =>
        rw [hh] at hsum
        simp only [List.cons_append, List.cons.injEq, List.append_eq_nil] at hsum
        obtain ⟨rfl, rfl, _⟩ := hsum
        exact Or.inr rfl
  | cons a more ih =>
    rw [Pipeline.run]
    cases hs : Pipeline.step spareOf s a with
    | none => exact ih s hi
    | some s2 => exact ih s2 (Pipeline.step_crash_second spareOf l1 l2 rest c1 h1 h2 s s2 a hs hi)

theorem lineStep_set_line (spare : Nat) :
    lineStep spare (ascii "1 [0 x] \"SET\" \"k\" \"v\"")
      = LineOutcome.emitted
          { Name := ascii "SET", Args := [ascii "k", ascii "v"],
            IArgs := [ascii "SET", ascii "k", ascii "v"],
            Raw := ascii "\"SET\" \"k\" \"v\"" } := by
  have hline : ascii "1 [0 x] \"SET\" \"k\" \"v\""
      = ascii "1 [0 x" ++ 93 :: 32 :: monitorLine [ascii "SET", ascii "k", ascii "v"] := by
    decide
  have hraw : ascii "\"SET\" \"k\" \"v\"" = monitorLine [ascii "SET", ascii "k", ascii "v"] := by
    decide
  have hplain : ∀ w ∈ [ascii "SET", ascii "k", ascii "v"], Plain w := by decide
  rw [hline, hraw, lineStep_bracket spare _ (by decide),
    parseRedisCommand_of_loop spare _ (ascii "SET") [ascii "k", ascii "v"]
      (by rw [parseLoop_monitorLine spare _ hplain]; rfl)]
  simp only []
  rw [if_neg (by decide)]

theorem lineStep_get_line (spare : Nat) :
    lineStep spare (ascii "1 [0 x] \"GET\" \"k\"")
      = LineOutcome.emitted
          { Name := ascii "GET", Args := [ascii "k"], IArgs := [ascii "GET", ascii "k"],
            Raw := ascii "\"GET\" \"k\"" } := by
  have hline : ascii "1 [0 x] \"GET\" \"k\""
      = ascii "1 [0 x" ++ 93 :: 32 :: monitorLine [ascii "GET", ascii "k"] := by
    decide
  have hraw : ascii "\"GET\" \"k\"" = monitorLine [ascii "GET", ascii "k"] := by decide
  have hplain : ∀ w ∈ [ascii "GET", ascii "k"], Plain w := by decide
  rw [hline, hraw, lineStep_bracket spare _ (by decide),
    parseRedisCommand_of_loop spare _ (ascii "GET") [ascii "k"]
      (by rw [parseLoop_monitorLine spare _ hplain]; rfl)]
  simp only []
  rw [if_neg (by decide)]

theorem lineStep_lone_backslash_line (spare : Nat) :
    lineStep spare (ascii "1 [0 x] \"a\" \"\\") = LineOutcome.crashed := by
  have e1 : ascii "\"a\" \"\\" = 34 :: 97 :: 34 :: 32 :: 34 :: [92] := by decide
  have e2 : ascii "1 [0 x] \"a\" \"\\" = ascii "1 [0 x" ++ 93 :: 32 :: ascii "\"a\" \"\\" := by
    decide
  have hp : parseRedisCommand spare (ascii "\"a\" \"\\") = none := by
    unfold parseRedisCommand
    rw [e1, parseLoop_open, parseLoop_plain_byte spare 97 _ _ _ (by decide) (by decide),
      parseLoop_close, parseLoop_outside spare 32 _ _ _ (by decide), parseLoop_open,
      parseLoop_backslash_end]
  rw [e2, lineStep_bracket spare _ (by decide), hp]

/-- C11: a line that makes the parser panic ends the process, so Commands of later lines
are never handed to the executor.  For the three lines `SET k v`, a line ending in a lone
backslash inside quotes, `GET k`, the per-line step yields the Commands `SET` and `GET`,
but under every schedule the executor has received nothing or `SET` only; when the
reader takes both lines first, the process is dead with `SET` still in the channel. -/
theorem panic_drops_later_commands (spareOf : Bytes → Nat) (sched : List Actor) :
    emittedOf spareOf
        [ascii "1 [0 x] \"SET\" \"k\" \"v\"", ascii "1 [0 x] \"a\" \"\\",
          ascii "1 [0 x] \"GET\" \"k\""]
      = [{ Name := ascii "SET", Args := [ascii "k", ascii "v"],
           IArgs := [ascii "SET", ascii "k", ascii "v"], Raw := ascii "\"SET\" \"k\" \"v\"" },
         { Name := ascii "GET", Args := [ascii "k"], IArgs := [ascii "GET", ascii "k"],
           Raw := ascii "\"GET\" \"k\"" }] ∧
    ((Pipeline.run spareOf sched (Pipeline.initial
        [ascii "1 [0 x] \"SET\" \"k\" \"v\"", ascii "1 [0 x] \"a\" \"\\",
          ascii "1 [0 x] \"GET\" \"k\""])).handed = [] ∨
     (Pipeline.run spareOf sched (Pipeline.initial
        [ascii "1 [0 x] \"SET\" \"k\" \"v\"", ascii "1 [0 x] \"a\" \"\\",
          ascii "1 [0 x] \"GET\" \"k\""])).handed
      = [{ Name := ascii "SET", Args := [ascii "k", ascii "v"],
           IArgs := [ascii "SET", ascii "k", ascii "v"],
           Raw := ascii "\"SET\" \"k\" \"v\"" }]) ∧
    Pipeline.run spareOf [Actor.reader, Actor.reader] (Pipeline.initial
        [ascii "1 [0 x] \"SET\" \"k\" \"v\"", ascii "1 [0 x] \"a\" \"\\",
          ascii "1 [0 x] \"GET\" \"k\""])
      = { input := [ascii "1 [0 x] \"a\" \"\\", ascii "1 [0 x] \"GET\" \"k\""],
          readerDone := false,
          queue := [{ Name := ascii "SET", Args := [ascii "k", ascii "v"],
                      IArgs := [ascii "SET", ascii "k", ascii "v"],
                      Raw := ascii "\"SET\" \"k\" \"v\"" }],
          closed := false, handed := [], sinkDone := false, crashed := true } ∧
    Pipeline.step spareOf (Pipeline.run spareOf [Actor.reader, Actor.reader] (Pipeline.initial
        [ascii "1 [0 x] \"SET\" \"k\" \"v\"", ascii "1 [0 x] \"a\" \"\\",
          ascii "1 [0 x] \"GET\" \"k\""])) Actor.sink = none := by
  have hrun : Pipeline.run spareOf [Actor.reader, Actor.reader] (Pipeline.initial
        [ascii "1 [0 x] \"SET\" \"k\" \"v\"", ascii "1 [0 x] \"a\" \"\\",
          ascii "1 [0 x] \"GET\" \"k\""])
      = { input := [ascii "1 [0 x] \"a\" \"\\", ascii "1 [0 x] \"GET\" \"k\""],
          readerDone := false,
          queue := [{ Name := ascii "SET", Args := [ascii "k", ascii "v"],
                      IArgs := [ascii "SET", ascii "k", ascii "v"],
                      Raw := ascii "\"SET\" \"k\" \"v\"" }],
          closed := false, handed := [], sinkDone := false, crashed := true } := by
    simp [Pipeline.run, Pipeline.step, Pipeline.initial, lineStep_set_line,
      lineStep_lone_backslash_line, chanBuffer]
  refine ⟨?_, ?_, hrun, ?_⟩
  · simp only [emittedOf, lineStep_set_line, lineStep_get_line, lineStep_lone_backslash_line]
  · exact Pipeline.run_crash_second spareOf _ _ _ _ (lineStep_set_line _)
      (lineStep_lone_backslash_line _) sched _ (Or.inl ⟨rfl, rfl, rfl⟩)
  · rw [hrun]
    simp [Pipeline.step]

end RedisMonitor
